import Mathlib

/-!
Verification of the geometry/export core of the probability-tree diagram editor.

The definitions below are shallow embeddings of the TypeScript modules:
pixel coordinates and spacing settings become rationals, the flat node list
becomes `List TreeNode`, and the mutable builder loops become fuel-bounded
recursions (the fuel bound is discussed at each definition).  The repository
carries several revisions of some modules; the embeddings follow the revision
with per-level sibling-distance halving (tree-layout), the revision of the
TikZ generator with `xshift`/`yshift` edge labels, the store revision with
cascade delete, and the SVG exporter built on `latex-to-native-svg-text`.
-/

set_option allowUnsafeReducibility true

namespace TreeDiagram

attribute [local semireducible] Rat.mul Rat.inv Rat.add Rat.sub Rat.ofScientific

/-- Node of the tree diagram (`TreeNode` in types/tree.ts).  `labelPosition` is one
of "above" | "below" | "left" | "right" | "center"; `labelOffset` is optional and
the TikZ generator defaults it to 15 (`labelOffset ?? 15`). -/
structure TreeNode where
  id : String
  parentId : Option String
  label : String
  labelPosition : String
  labelOffset : Option ℚ
  color : String
deriving DecidableEq

/-- Edge of the tree diagram (`TreeEdge` in types/tree.ts), with the independent
pixel offsets used by the TikZ generator (`labelOffsetX ?? 0`, `labelOffsetY ?? 0`). -/
structure TreeEdge where
  id : String
  sourceId : String
  targetId : String
  label : String
  labelPosition : String
  labelOffsetX : Option ℚ
  labelOffsetY : Option ℚ
deriving DecidableEq

/-- Layout settings (`TreeSettings` in types/tree.ts); `direction` is the string
union "vertical" | "horizontal". -/
structure TreeSettings where
  levelDistance : ℚ
  siblingDistance : ℚ
  nodeSize : ℚ
  direction : String
deriving DecidableEq

/-- `DEFAULT_SETTINGS` from types/tree.ts. -/
def DEFAULT_SETTINGS : TreeSettings :=
  { levelDistance := 120, siblingDistance := 200, nodeSize := 6, direction := "vertical" }

/-- Computed node position (`NodePosition` in tree-layout.ts). -/
structure NodePosition where
  id : String
  x : ℚ
  y : ℚ
deriving DecidableEq

/-- Tree node with resolved children (`TreeNodeWithChildren` in tree-layout.ts). -/
inductive TreeNW where
  | mk (node : TreeNode) (children : List TreeNW)

/-- The node stored at the root of a `TreeNW`. -/
def TreeNW.node : TreeNW → TreeNode
  | .mk n _ => n

/-- The children list of a `TreeNW`. -/
def TreeNW.children : TreeNW → List TreeNW
  | .mk _ cs => cs

/-- Lookup by id, mirroring `nodeMap.get`: the map is keyed by `node.id`, so on a
list with distinct ids this is exactly the map lookup. -/
def findById (nodes : List TreeNode) (pid : String) : Option TreeNode :=
  nodes.find? (fun n => n.id == pid)

/-- The root selected by the linking loop of `buildTree`: the loop overwrites its
`root` variable on every node with `parentId = null`, so the last such node wins. -/
def findRoot (nodes : List TreeNode) : Option TreeNode :=
  nodes.foldl (fun acc n => if n.parentId = none then some n else acc) none

/-- Children of the node with id `pid`, in node-list order: `buildTree` pushes each
node onto its parent's `children` array while iterating the flat list in order. -/
def childrenOf (nodes : List TreeNode) (pid : String) : List TreeNode :=
  nodes.filter (fun n => n.parentId == some pid)

/-- Fuel-bounded expansion of the pointer structure produced by `buildTree`.  The
JS code builds the children lists by mutation and the layout then walks the part
reachable from the root; with distinct ids a root-reachable parent chain never
repeats a node, so expansion with fuel `nodes.length` visits exactly the nodes the
JS recursion visits. -/
def buildSubtree (nodes : List TreeNode) : Nat → TreeNode → TreeNW
  | 0, n => .mk n []
  | f + 1, n => .mk n ((childrenOf nodes n.id).map (buildSubtree nodes f))

/-- `buildTree` from tree-layout.ts: `null` exactly when no node has
`parentId = null` (the empty list also yields `null`). -/
def buildTree (nodes : List TreeNode) : Option TreeNW :=
  (findRoot nodes).map (buildSubtree nodes nodes.length)

mutual
/-- Recursive layout (`layoutNode` in tree-layout.ts, the revision that matches the
TikZ per-level halving): the node itself is recorded at `(x, y)`; when it has
children, the per-level sibling spacing is `siblingDistance / 2 ^ depth`, the total
span is `(childCount - 1) * spacing`, and the loop places child `i` at secondary
coordinate `parentSecondary - span / 2 + i * spacing` while the primary axis
advances by `levelDistance`. -/
def layoutNode (s : TreeSettings) (t : TreeNW) (x y : ℚ) (depth : Nat) :
    List NodePosition :=
  match t with
  | .mk n children =>
    if children.isEmpty then [⟨n.id, x, y⟩]
    else
      let isH := s.direction == "horizontal"
      let sibDist := s.siblingDistance / 2 ^ depth
      let totalWidth := ((children.length : ℚ) - 1) * sibDist
      let childPrimary := if isH then x + s.levelDistance else y + s.levelDistance
      let parentSecondary := if isH then y else x
      let startSecondary := parentSecondary - totalWidth / 2
      ⟨n.id, x, y⟩ :: layoutKids s children startSecondary childPrimary isH sibDist depth 0

/-- The child-placement `for` loop inside `layoutNode`, with the running index `i`. -/
def layoutKids (s : TreeSettings) (cs : List TreeNW) (startSecondary childPrimary : ℚ)
    (isH : Bool) (sibDist : ℚ) (depth : Nat) (i : Nat) : List NodePosition :=
  match cs with
  | [] => []
  | c :: rest =>
    let childSecondary := startSecondary + (i : ℚ) * sibDist
    let childX := if isH then childPrimary else childSecondary
    let childY := if isH then childSecondary else childPrimary
    layoutNode s c childX childY (depth + 1) ++
      layoutKids s rest startSecondary childPrimary isH sibDist depth (i + 1)
end

/-- `computeTreeLayout` from tree-layout.ts: empty result when there is no root,
otherwise the layout recursion from the direction-dependent start anchor. -/
def computeTreeLayout (nodes : List TreeNode) (s : TreeSettings) : List NodePosition :=
  match buildTree nodes with
  | none => []
  | some root =>
    let startX : ℚ := if s.direction == "horizontal" then 50 else 400
    let startY : ℚ := if s.direction == "horizontal" then 300 else 50
    layoutNode s root startX startY 0

/-- `HORIZONTAL_POSITION_MAP` from tikz-generator.ts together with the
`HORIZONTAL_POSITION_MAP[position] || position` fallback used at both call sites. -/
def horizontalPositionMap (pos : String) : String :=
  if pos == "left" then "above"
  else if pos == "right" then "below"
  else if pos == "above" then "left"
  else if pos == "below" then "right"
  else pos

/-- The `rotatePos` closure defined inside the store's `updateSettings` action
(use-tree-store, direction-change branch); textually the same map as
`HORIZONTAL_POSITION_MAP`, duplicated in the source. -/
def rotatePos (pos : String) : String :=
  if pos == "left" then "above"
  else if pos == "right" then "below"
  else if pos == "above" then "left"
  else if pos == "below" then "right"
  else pos

/-- Model of a DOM `Blob`: payload plus MIME type (export-png.ts). -/
structure Blob where
  content : String
  mime : String

/-- Model of `URL.createObjectURL`: the browser mints a fresh object URL in the
`blob:` scheme; `handle` stands for the browser-chosen part after the scheme. -/
def urlCreateObjectURL (_b : Blob) (handle : String) : String :=
  "blob:" ++ handle

/-- The URI `exportPng` assigns to the offscreen image (`img.src = svgUrl`):
the serialized SVG string is put in a Blob of type `image/svg+xml;charset=utf-8`
and wrapped by `URL.createObjectURL` (export-png.ts, raster exporter). -/
def exportPngImageSrc (svgString : String) (handle : String) : String :=
  urlCreateObjectURL ⟨svgString, "image/svg+xml;charset=utf-8"⟩ handle

/-- Uri classification helpers: a data URI starts with the `data:` scheme, an
object URL with the `blob:` scheme. -/
def isDataUri (s : String) : Bool :=
  "data:".data.isPrefixOf s.data

/-- See `isDataUri`. -/
def isBlobUri (s : String) : Bool :=
  "blob:".data.isPrefixOf s.data

/-- Decode outcome of the offscreen image inside `exportPng`. -/
inductive ImageLoad where
  | loaded
  | failed
deriving DecidableEq

/-- Outcome of the promise inside `exportPng` (export-png.ts): `img.onerror`
rejects with "Failed to load SVG as image"; `img.onload` with no 2D context
rejects with "Failed to get canvas context"; otherwise the scene is drawn onto a
canvas of size `(width * scale, height * scale)` and the promise resolves.  The
promise body runs once per export call; neither handler re-installs the image or
retries, so each error is terminal for the attempt. -/
def exportPngOutcome (width height scale : ℚ) (load : ImageLoad) (ctxAvailable : Bool) :
    Except String (ℚ × ℚ) :=
  match load with
  | .failed => .error "Failed to load SVG as image"
  | .loaded =>
    if ctxAvailable then .ok (width * scale, height * scale)
    else .error "Failed to get canvas context"

/-- One step up the parent chain: resolve `m.parentId` through the node map. -/
def parentOf (nodes : List TreeNode) (m : TreeNode) : Option TreeNode :=
  match m.parentId with
  | none => none
  | some pid => findById nodes pid

/-- `j` steps up the parent chain (`none` as soon as the chain leaves the list or
passes a root). -/
def iterParent (nodes : List TreeNode) : Nat → TreeNode → Option TreeNode
  | 0, m => some m
  | j + 1, m => (parentOf nodes m).bind (iterParent nodes j)

/-- Decidable bounded reachability along the parent chain: `m` reaches `n` in at
most `f` steps. -/
def reachWithin (nodes : List TreeNode) (m n : TreeNode) (f : Nat) : Bool :=
  (List.range (f + 1)).any (fun j => iterParent nodes j m == some n)

theorem reachWithin_iff {nodes : List TreeNode} {m n : TreeNode} {f : Nat} :
    reachWithin nodes m n f = true ↔ ∃ j ≤ f, iterParent nodes j m = some n := by
  simp only [reachWithin, List.any_eq_true, List.mem_range, beq_iff_eq, Nat.lt_succ_iff]

theorem iterParent_add (nodes : List TreeNode) (a b : Nat) (m : TreeNode) :
    iterParent nodes (a + b) m = (iterParent nodes a m).bind (iterParent nodes b) := by
  induction a generalizing m with
  | zero => simp [iterParent]
  | succ a ih =>
    have h1 : a + 1 + b = (a + b) + 1 := by omega
    rw [h1]
    show (parentOf nodes m).bind (iterParent nodes (a + b))
      = ((parentOf nodes m).bind (iterParent nodes a)).bind (iterParent nodes b)
    cases parentOf nodes m with
    | none => rfl
    | some p => exact ih p

theorem iterParent_succ_far (nodes : List TreeNode) (j : Nat) (m : TreeNode) :
    iterParent nodes (j + 1) m = (iterParent nodes j m).bind (parentOf nodes) := by
  rw [iterParent_add nodes j 1 m]
  cases iterParent nodes j m with
  | none => rfl
  | some c => simp [iterParent]

theorem findById_eq_some {nodes : List TreeNode} {pid : String} {p : TreeNode}
    (h : findById nodes pid = some p) : p ∈ nodes ∧ p.id = pid := by
  refine ⟨List.mem_of_find?_eq_some h, ?_⟩
  have := List.find?_some h
  simpa [beq_iff_eq] using this

theorem parentOf_mem {nodes : List TreeNode} {m p : TreeNode}
    (h : parentOf nodes m = some p) : p ∈ nodes := by
  unfold parentOf at h
  cases hm : m.parentId with
  | none => rw [hm] at h; exact absurd h (by simp)
  | some pid => rw [hm] at h; exact (findById_eq_some h).1

theorem iterParent_mem {nodes : List TreeNode} {j : Nat} {m c : TreeNode}
    (hm : m ∈ nodes) (h : iterParent nodes j m = some c) : c ∈ nodes := by
  induction j generalizing m with
  | zero => cases h; exact hm
  | succ j ih =>
    rw [show j + 1 = j + 1 from rfl] at h
    unfold iterParent at h
    cases hp : parentOf nodes m with
    | none => rw [hp] at h; exact absurd h (by simp)
    | some p => rw [hp] at h; exact ih (parentOf_mem hp) h

theorem iterParent_none_stable {nodes : List TreeNode} {j : Nat} {m : TreeNode}
    (h : iterParent nodes j m = none) (k : Nat) : iterParent nodes (j + k) m = none := by
  induction k with
  | zero => exact h
  | succ k ih =>
    have : j + (k + 1) = (j + k) + 1 := by omega
    rw [this, iterParent_succ_far, ih]
    rfl

theorem iterParent_pump {nodes : List TreeNode} {p : Nat} {m : TreeNode}
    (h : iterParent nodes p m = some m) (q : Nat) :
    iterParent nodes (p * q) m = some m := by
  induction q with
  | zero => simp [iterParent]
  | succ q ih =>
    have : p * (q + 1) = p * q + p := by ring
    rw [this, iterParent_add, ih]
    exact h

/-- Ids of `nodes` are distinct: the well-formedness invariant of the data model
(the store always creates fresh ids). -/
def idsNodup (nodes : List TreeNode) : Prop :=
  (nodes.map TreeNode.id).Nodup

instance (nodes : List TreeNode) : Decidable (idsNodup nodes) := by
  unfold idsNodup
  infer_instance

theorem findById_self {nodes : List TreeNode} (hnd : idsNodup nodes)
    {n : TreeNode} (hn : n ∈ nodes) : findById nodes n.id = some n := by
  induction nodes with
  | nil => cases hn
  | cons a l ih =>
    have hnd' : idsNodup l := (List.nodup_cons.mp hnd).2
    unfold findById at *
    by_cases ha : a.id = n.id
    · have : a = n := by
        rcases List.mem_cons.mp hn with h | h
        · exact h.symm
        · exfalso
          exact (List.nodup_cons.mp hnd).1 (ha ▸ List.mem_map_of_mem TreeNode.id h)
      simp [List.find?, this]
    · have hn' : n ∈ l := by
        rcases List.mem_cons.mp hn with h | h
        · exact absurd (h ▸ rfl) ha
        · exact h
      have hb : (a.id == n.id) = false := beq_eq_false_iff_ne.mpr ha
      simp only [List.find?, hb]
      exact ih hnd' hn'

theorem parentOf_child {nodes : List TreeNode} (hnd : idsNodup nodes)
    {n c : TreeNode} (hn : n ∈ nodes) (hc : c.parentId = some n.id) :
    parentOf nodes c = some n := by
  unfold parentOf
  rw [hc]
  exact findById_self hnd hn

theorem findRoot_cases {nodes : List TreeNode} {r : TreeNode}
    (h : findRoot nodes = some r) : r ∈ nodes ∧ r.parentId = none := by
  suffices H : ∀ (l : List TreeNode) (acc : Option TreeNode) (r : TreeNode),
      l.foldl (fun acc n => if n.parentId = none then some n else acc) acc = some r →
      acc = some r ∨ (r ∈ l ∧ r.parentId = none) by
    rcases H nodes none r h with h' | h'
    · exact absurd h' (by simp)
    · exact h'
  intro l
  induction l with
  | nil => intro acc r h; exact Or.inl h
  | cons a l ih =>
    intro acc r h
    rcases ih _ r h with h' | h'
    · have h'' : (if a.parentId = none then some a else acc) = some r := h'
      by_cases ha : a.parentId = none
      · rw [if_pos ha] at h''
        cases h''
        exact Or.inr ⟨List.mem_cons_self _ _, ha⟩
      · rw [if_neg ha] at h''
        exact Or.inl h''
    · exact Or.inr ⟨List.mem_cons_of_mem _ h'.1, h'.2⟩

theorem findRoot_eq_none {nodes : List TreeNode}
    (h : ∀ n ∈ nodes, n.parentId ≠ none) : findRoot nodes = none := by
  suffices H : ∀ (l : List TreeNode) (acc : Option TreeNode),
      (∀ n ∈ l, n.parentId ≠ none) →
      l.foldl (fun acc n => if n.parentId = none then some n else acc) acc = acc by
    exact H nodes none h
  intro l
  induction l with
  | nil => intro acc _; rfl
  | cons a l ih =>
    intro acc hl
    have ha : a.parentId ≠ none := hl a (List.mem_cons_self _ _)
    show l.foldl _ (if a.parentId = none then some a else acc) = acc
    rw [if_neg ha]
    exact ih acc (fun n hn => hl n (List.mem_cons_of_mem _ hn))

/-- Nodes whose parent chain resolves to a root (a node with `parentId = null`)
cannot sit on a parent-chain cycle. -/
theorem no_cycle_of_resolves {nodes : List TreeNode} {m root : TreeNode} {N : Nat}
    (hroot : root.parentId = none)
    (hres : reachWithin nodes m root N = true) :
    ∀ k, iterParent nodes (k + 1) m ≠ some m := by
  intro k hk
  rcases reachWithin_iff.mp hres with ⟨j, _, hj⟩
  have hnone : iterParent nodes (j + 1) m = none := by
    rw [iterParent_succ_far, hj]
    show parentOf nodes root = none
    unfold parentOf
    rw [hroot]
  have hpump := iterParent_pump hk (j + 1)
  have hge : (k + 1) * (j + 1) = (j + 1) + ((k + 1) * (j + 1) - (j + 1)) := by
    have : j + 1 ≤ (k + 1) * (j + 1) := Nat.le_mul_of_pos_left _ (Nat.succ_pos k)
    omega
  rw [hge, iterParent_none_stable hnone] at hpump
  exact absurd hpump (by simp)

/-- C3 counterexample: applying the horizontal rotation map twice to "left" gives
back "left" (so two applications already act as the identity at "left"), while a
single application does not; hence the map applied twice is not distinct from the
identity there and 4 applications are not required to return to "left". -/
theorem horizontalPositionMap_double_left :
    horizontalPositionMap (horizontalPositionMap "left") = "left" ∧
    horizontalPositionMap "left" ≠ "left" := by
  constructor
  · rfl
  · decide

/-- C3 (amended): the fixed map \x7bleft:above, right:below, above:left,
below:right\x7d is an involution made of the two 2-cycles (left above) and
(right below): applying it twice is the identity on all four positions, one
application moves "left", and exactly 2 (not 4) applications return "left" to
itself; the store's `rotatePos` agrees with it on all four positions. -/
theorem horizontalPositionMap_involution :
    horizontalPositionMap (horizontalPositionMap "left") = "left" ∧
    horizontalPositionMap (horizontalPositionMap "right") = "right" ∧
    horizontalPositionMap (horizontalPositionMap "above") = "above" ∧
    horizontalPositionMap (horizontalPositionMap "below") = "below" ∧
    horizontalPositionMap "left" ≠ "left" ∧
    rotatePos "left" = horizontalPositionMap "left" ∧
    rotatePos "right" = horizontalPositionMap "right" ∧
    rotatePos "above" = horizontalPositionMap "above" ∧
    rotatePos "below" = horizontalPositionMap "below" := by
  refine ⟨rfl, rfl, rfl, rfl, ?_, rfl, rfl, rfl, rfl⟩
  decide

/-- C4 counterexample: on a concrete serialized scene the raster exporter's image
source is an object URL in the `blob:` scheme, not a `data:` URI. -/
theorem exportPngImageSrc_is_blob_concrete :
    isDataUri (exportPngImageSrc "<svg></svg>" "0a1b") = false ∧
    isBlobUri (exportPngImageSrc "<svg></svg>" "0a1b") = true := by
  constructor <;> rfl

/-- C4 (amended): the raster exporter serializes the cleaned vector scene to a
string and wraps it as a Blob object URL via `URL.createObjectURL` (scheme
`blob:`), not as a data URI; the canvas stays untainted because the embedded-HTML
labels were already replaced by native SVG text before serialization. -/
theorem exportPngImageSrc_blob (svgString handle : String) :
    exportPngImageSrc svgString handle = "blob:" ++ handle ∧
    isDataUri (exportPngImageSrc svgString handle) = false ∧
    isBlobUri (exportPngImageSrc svgString handle) = true := by
  refine ⟨rfl, rfl, ?_⟩
  show "blob:".data.isPrefixOf (("blob:" ++ handle)).data = true
  simp [List.isPrefixOf]

/-- C8: the raster export promise rejects with the exact message "Failed to load
SVG as image" when the offscreen image fails to decode, and with "Failed to get
canvas context" when a 2D context is unavailable; the promise body installs each
handler once and neither handler retries, so both failures are terminal for the
export attempt. -/
theorem exportPngOutcome_errors (width height scale : ℚ) (ctxAvailable : Bool) :
    exportPngOutcome width height scale .failed ctxAvailable
      = .error "Failed to load SVG as image" ∧
    exportPngOutcome width height scale .loaded false
      = .error "Failed to get canvas context" :=
  ⟨rfl, rfl⟩

theorem layoutKids_vertical_eq (s : TreeSettings) (cs : List TreeNW)
    (start cp sd : ℚ) (d : Nat) :
    ∀ i, layoutKids s cs start cp false sd d i
      = (List.enumFrom i cs).flatMap
          (fun p => layoutNode s p.2 (start + (p.1 : ℚ) * sd) cp (d + 1)) := by
  induction cs with
  | nil => intro i; rfl
  | cons c rest ih =>
    intro i
    show layoutNode s c (start + (i : ℚ) * sd) cp (d + 1) ++ layoutKids s rest start cp false sd d (i + 1)
      = _
    rw [ih (i + 1)]
    rfl

/-- C1: `computeTreeLayout` (through its recursive worker `layoutNode`) places the
children of a node sitting at depth `d` (root = depth 0) with per-level sibling
spacing `siblingDistance / 2 ^ d`, centered symmetrically around the parent's
secondary-axis coordinate — child `i` at `parentSecondary - totalSpan / 2 +
i * spacing` with `totalSpan = (childCount - 1) * spacing` — while the primary
axis advances by `levelDistance` per depth (vertical direction: secondary = x,
primary = y); every node is recorded exactly at its assigned coordinates, adjacent
siblings differ by exactly the spacing, and the spacing at depth `d' ≥ 1` is
exactly half the spacing at depth `d' - 1`, so in a uniformly branching vertical
tree the secondary-axis distance between adjacent siblings at depth `d + 1` is
exactly half the distance at depth `d` for all `d ≥ 1`. -/
theorem layoutNode_children_placement (s : TreeSettings)
    (hdir : s.direction = "vertical")
    (n : TreeNode) (cs : List TreeNW) (x y : ℚ) (d : Nat) :
    (layoutNode s (TreeNW.mk n cs) x y d
        = ⟨n.id, x, y⟩ ::
          cs.enum.flatMap (fun p =>
            layoutNode s p.2
              (x - ((cs.length : ℚ) - 1) * (s.siblingDistance / 2 ^ d) / 2
                 + (p.1 : ℚ) * (s.siblingDistance / 2 ^ d))
              (y + s.levelDistance) (d + 1))) ∧
    (∀ (t : TreeNW) (a b : ℚ) (d' : Nat),
        (layoutNode s t a b d').head? = some ⟨t.node.id, a, b⟩) ∧
    (∀ k : Nat,
        (x - ((cs.length : ℚ) - 1) * (s.siblingDistance / 2 ^ d) / 2
           + ((k : ℚ) + 1) * (s.siblingDistance / 2 ^ d))
        - (x - ((cs.length : ℚ) - 1) * (s.siblingDistance / 2 ^ d) / 2
           + (k : ℚ) * (s.siblingDistance / 2 ^ d))
        = s.siblingDistance / 2 ^ d) ∧
    (∀ d' : Nat, 1 ≤ d' →
        s.siblingDistance / 2 ^ d' = s.siblingDistance / 2 ^ (d' - 1) / 2) := by
  refine ⟨?_, ?_, ?_, ?_⟩
  · cases cs with
    | nil => rfl
    | cons c rest =>
      show (if (c :: rest).isEmpty then [(⟨n.id, x, y⟩ : NodePosition)]
            else _) = _
      rw [if_neg (by simp)]
      have hb : (s.direction == "horizontal") = false := by
        rw [hdir]; decide
      simp only [hb]
      rw [layoutKids_vertical_eq]
      congr 2
  · intro t a b d'
    cases t with
    | mk nn cc =>
      cases cc with
      | nil => rfl
      | cons c rest =>
        show ((if False then [(⟨nn.id, a, b⟩ : NodePosition)] else _).head? = _)
        simp only [if_false]
        rfl
  · intro k
    ring
  · intro d' hd'
    cases d' with
    | zero => omega
    | succ e =>
      simp only [Nat.add_sub_cancel]
      rw [pow_succ, ← div_div]

/-- C1 witness: the placement theorem applied to a depth-1 node with two leaf
children under the default settings, evaluated on concrete rationals (spacing
`200 / 2 ^ 1 = 100`, span `100`, children at `300 ∓ 50`, next level at
`170 + 120`). -/
theorem layoutNode_children_placement_witness :
    layoutNode DEFAULT_SETTINGS
      (TreeNW.mk ⟨"a", some "root", "A", "left", none, "cyan"⟩
        [TreeNW.mk ⟨"b1", some "a", "B", "below", none, "pink"⟩ [],
         TreeNW.mk ⟨"b1-bar", some "a", "B", "below", none, "violet"⟩ []])
      300 170 1
      = [⟨"a", 300, 170⟩, ⟨"b1", 250, 290⟩, ⟨"b1-bar", 350, 290⟩] := by
  have h := (layoutNode_children_placement DEFAULT_SETTINGS rfl
      ⟨"a", some "root", "A", "left", none, "cyan"⟩
      [TreeNW.mk ⟨"b1", some "a", "B", "below", none, "pink"⟩ [],
       TreeNW.mk ⟨"b1-bar", some "a", "B", "below", none, "violet"⟩ []] 300 170 1).1
  rw [h]
  norm_num [layoutNode, List.enum, List.enumFrom, DEFAULT_SETTINGS]

/-! ### Worked example (default sample tree of the canvas component)

Root "Gốc O" with children A and Ā at depth 1 (edge labels "0,4"/"0,6"), each
depth-1 child with children B and B̄ at depth 2; every edge labeled. -/

/-- The seven nodes of the worked example (`SAMPLE_NODES` in the canvas
component), with the optional offset fields absent. -/
def sampleNodes : List TreeNode :=
  [⟨"root", none, "\\text\x7bGốc \x7d O", "above", none, "orange"⟩,
   ⟨"a", some "root", "A", "left", none, "cyan"⟩,
   ⟨"a-bar", some "root", "\\overline\x7bA\x7d", "right", none, "green"⟩,
   ⟨"b1", some "a", "B", "below", none, "pink"⟩,
   ⟨"b1-bar", some "a", "\\overline\x7bB\x7d", "below", none, "violet"⟩,
   ⟨"b2", some "a-bar", "B", "below", none, "pink"⟩,
   ⟨"b2-bar", some "a-bar", "\\overline\x7bB\x7d", "below", none, "violet"⟩]

/-- The six labeled edges of the worked example (`SAMPLE_EDGES`). -/
def sampleEdges : List TreeEdge :=
  [⟨"e1", "root", "a", "0,4", "left", none, none⟩,
   ⟨"e2", "root", "a-bar", "0,6", "right", none, none⟩,
   ⟨"e3", "a", "b1", "0,3", "left", none, none⟩,
   ⟨"e4", "a", "b1-bar", "0,7", "right", none, none⟩,
   ⟨"e5", "a-bar", "b2", "0,4", "left", none, none⟩,
   ⟨"e6", "a-bar", "b2-bar", "0,6", "right", none, none⟩]

/-! ### TikZ generator (tikz-generator.ts) -/

/-- `String.prototype.startsWith`, on the character representation. -/
def strStartsWith (s pre : String) : Bool :=
  pre.data.isPrefixOf s.data

/-- `String.prototype.endsWith`, on the character representation. -/
def strEndsWith (s post : String) : Bool :=
  post.data.isSuffixOf s.data

/-- `COLOR_MAP` lookup with the `COLOR_MAP[node.color] || node.color` fallback. -/
def colorMapped (c : String) : String :=
  if c == "orange" then "orange!80"
  else if c == "cyan" then "cyan!50"
  else if c == "green" then "green!60!black"
  else if c == "pink" then "pink!90"
  else if c == "violet" then "violet!80"
  else if c == "red" then "red!80"
  else if c == "blue" then "blue!60"
  else if c == "yellow" then "yellow!80"
  else if c == "gray" then "gray!60"
  else c

/-- `Math.round`: round half toward positive infinity, as in JS. -/
def jsRound (q : ℚ) : Int :=
  ⌊q + 1 / 2⌋

/-- Rendering of `q` with exactly one digit after the decimal point, as
`Number.prototype.toFixed(1)` renders the (exactly representable) pixel/40
values the generator produces: rounding is half away from zero. -/
def toFixed1 (q : ℚ) : String :=
  if q < 0 then "-" ++ toFixed1Core (-q) else toFixed1Core q
where
  /-- Nonnegative core of `toFixed1`. -/
  toFixed1Core (q : ℚ) : String :=
    let n10 : Nat := (⌊q * 10 + 1 / 2⌋).toNat
    toString (n10 / 10) ++ "." ++ toString (n10 % 10)

/-- JS template-literal stringification of a number; the generator only
interpolates integral values (`nodeSize`, rounded point offsets), which JS
renders without a decimal point. -/
def jsNumToString (q : ℚ) : String :=
  if q.den = 1 then toString q.num else toFixed1 q

/-- `pxToCm` from tikz-generator.ts: `(px / 40).toFixed(1) + 'cm'`. -/
def pxToCm (px : ℚ) : String :=
  toFixed1 (px / 40) ++ "cm"

/-- The per-node `while (current?.parentId)` depth loop of `getMaxDepth`, with
fuel; a dangling parent reference contributes one step and stops, as in JS
(`nodeMap.get` returns `undefined`).  Fuel `nodes.length` covers every chain that
terminates. -/
def depthOfFuel (nodes : List TreeNode) : Nat → TreeNode → Nat
  | 0, _ => 0
  | f + 1, cur =>
    match cur.parentId with
    | none => 0
    | some pid =>
      match findById nodes pid with
      | none => 1
      | some p => 1 + depthOfFuel nodes f p

/-- `getMaxDepth` from tikz-generator.ts. -/
def getMaxDepth (nodes : List TreeNode) : Nat :=
  nodes.foldl (fun acc n => max acc (depthOfFuel nodes nodes.length n)) 0

/-- `generateStyles` from tikz-generator.ts: dot style, optional `grow=right`,
one `level i` spacing style per depth with sibling distance
`siblingDistance / 2 ^ (i - 1)`, and the edge style; lines joined with `,\n`. -/
def generateStyles (settings : TreeSettings) (maxDepth : Nat) : String :=
  let base := "    dot/.style=\x7bcircle, fill=#1, inner sep=0pt, minimum size="
      ++ jsNumToString settings.nodeSize ++ "pt\x7d"
  let head := if settings.direction == "horizontal" then [base, "    grow=right"] else [base]
  let levelLines := (List.range maxDepth).map (fun k =>
    let i := k + 1
    let siblingDist := settings.siblingDistance / 2 ^ (i - 1)
    "    level " ++ toString i ++ "/.style=\x7bsibling distance=" ++ pxToCm siblingDist
      ++ ", level distance=" ++ pxToCm settings.levelDistance ++ "\x7d")
  String.intercalate ",\n"
    (head ++ levelLines ++ ["    edge from parent/.style=\x7bdraw, thick, black\x7d"])

/-- `formatLabel` from tikz-generator.ts. -/
def formatLabel (label : String) (position : String) (labelOffset : Option ℚ)
    (isHorizontal : Bool) : String :=
  if label == "" then ""
  else
    let pos := if isHorizontal then horizontalPositionMap position else position
    let distPt : Int := jsRound (labelOffset.getD 15 / 3)
    let shiftAxis := if pos == "left" || pos == "right" then "xshift" else "yshift"
    let sign := if pos == "above" || pos == "right" then "" else "-"
    let shiftStyle :=
      if distPt ≠ 5 then "[" ++ shiftAxis ++ "=" ++ sign ++ toString distPt ++ "pt]" else ""
    let labelContent :=
      if strStartsWith label "$" && strEndsWith label "$" then label
      else "$" ++ label ++ "$"
    ", label=\x7b" ++ shiftStyle ++ pos ++ ":\x7b" ++ labelContent ++ "\x7d\x7d"

/-- `EDGE_LABEL_DIRS[pos].anchor` with the `|| EDGE_LABEL_DIRS.left` fallback. -/
def edgeAnchor (pos : String) : String :=
  if pos == "above" then "south"
  else if pos == "below" then "north"
  else if pos == "left" then "east"
  else if pos == "right" then "west"
  else "east"

/-- `generateEdgeLabel` from tikz-generator.ts; the JS float literal `0.6`
(the calibrated px→pt ratio) is the rational `3 / 5`, which rounds identically
on the offsets involved. -/
def generateEdgeLabel (edge : TreeEdge) (isHorizontal : Bool) : String :=
  if edge.label == "" then ""
  else
    let pos := if isHorizontal then horizontalPositionMap edge.labelPosition
               else edge.labelPosition
    let anchor := edgeAnchor pos
    let xPt : Int := jsRound (edge.labelOffsetX.getD 0 * (3 / 5))
    let yPt : Int := -jsRound (edge.labelOffsetY.getD 0 * (3 / 5))
    "edge from parent node[pos=0.5,sloped=false,anchor=" ++ anchor
      ++ ",xshift=" ++ toString xPt ++ "pt,yshift=" ++ toString yPt ++ "pt] \x7b$"
      ++ edge.label ++ "$\x7d"

/-- `'    '.repeat(k)`. -/
def strRepeat (s : String) : Nat → String
  | 0 => ""
  | k + 1 => s ++ strRepeat s k

/-- `String.prototype.trimEnd` (the generator's strings only carry spaces and
newlines at the end). -/
def trimEndStr (s : String) : String :=
  String.mk (s.data.reverse.dropWhile Char.isWhitespace).reverse

/-- The edge map `new Map(edges.map((e) => [e.targetId, e]))`: keyed by
`targetId`, later entries overwrite earlier ones. -/
def edgeMapGet (edges : List TreeEdge) (tid : String) : Option TreeEdge :=
  edges.foldl (fun acc e => if e.targetId == tid then some e else acc) none

/-- `generateNode` from tikz-generator.ts, with fuel standing in for the JS call
stack: the recursion descends one tree level per call, so fuel `nodes.length`
suffices for every input on which the JS recursion terminates. -/
def generateNode (allNodes : List TreeNode) (edges : List TreeEdge) :
    Nat → TreeNode → Nat → Bool → Bool → String
  | 0, _, _, _, _ => ""
  | f + 1, node, depth, isRoot, isHorizontal =>
    let nodeIndent := strRepeat "    " depth
    let childBlockIndent := strRepeat "    " (depth + 1)
    let childContentIndent := strRepeat "    " (depth + 2)
    let color := colorMapped node.color
    let isCenterLabel := node.labelPosition == "center"
    let label :=
      if isCenterLabel then ""
      else formatLabel node.label node.labelPosition node.labelOffset isHorizontal
    let childNodes := allNodes.filter (fun n => n.parentId == some node.id)
    let children := if isHorizontal then childNodes.reverse else childNodes
    let nodeCmd := if isRoot then "\\node" else "node"
    let result :=
      if isCenterLabel && node.label != "" then
        let labelContent :=
          if strStartsWith node.label "$" && strEndsWith node.label "$" then node.label
          else "$" ++ node.label ++ "$"
        nodeIndent ++ nodeCmd ++ "[fill=white,rectangle,inner sep=1pt] \x7b"
          ++ labelContent ++ "\x7d"
      else
        nodeIndent ++ nodeCmd ++ "[dot=" ++ color ++ label ++ "] \x7b\x7d"
    if children.isEmpty then result
    else
      let blocks := children.foldl (fun acc child =>
        let edge := edgeMapGet edges child.id
        let childStr := generateNode allNodes edges f child (depth + 2) false isHorizontal
        let edgeLabel :=
          match edge with
          | none => ""
          | some e => generateEdgeLabel e isHorizontal
        acc ++ childBlockIndent ++ "child \x7b\n" ++ childStr ++ "\n"
          ++ (if edgeLabel != "" then childContentIndent ++ edgeLabel ++ "\n" else "")
          ++ childBlockIndent ++ "\x7d\n") ""
      trimEndStr (result ++ "\n" ++ blocks)

/-- `generateTikZ` from tikz-generator.ts (the root is looked up with
`nodes.find`, i.e. the first node with `parentId = null`). -/
def generateTikZ (nodes : List TreeNode) (edges : List TreeEdge)
    (settings : TreeSettings) : String :=
  if nodes.isEmpty then
    "% No tree to export\n\\begin\x7btikzpicture\x7d\n\\end\x7btikzpicture\x7d"
  else
    match nodes.find? (fun n => n.parentId == none) with
    | none => "% No root node found\n\\begin\x7btikzpicture\x7d\n\\end\x7btikzpicture\x7d"
    | some root =>
      let maxDepth := getMaxDepth nodes
      let styles := generateStyles settings maxDepth
      let isHorizontal := settings.direction == "horizontal"
      let tree := generateNode nodes edges nodes.length root 0 true isHorizontal
      "\\begin\x7btikzpicture\x7d[\n" ++ styles ++ "\n]\n" ++ tree
        ++ ";\n\\end\x7btikzpicture\x7d"

/-- Number of start positions at which `pat` occurs in `s` (character-level
substring count). -/
def countOccs (pat : List Char) : List Char → Nat
  | [] => 0
  | c :: rest => (if pat.isPrefixOf (c :: rest) then 1 else 0) + countOccs pat rest

/-- Substring-occurrence count on strings. -/
def countSubstr (pat s : String) : Nat :=
  countOccs pat.data s.data

set_option maxRecDepth 40000

/-- C2: on the worked example (root with two labeled depth-1 children, each with
two labeled depth-2 children), `generateTikZ` emits exactly two `level N/.style`
declarations (N = 1, 2) — the only two `sibling distance=` fragments — whose
level-2 sibling distance `2.5cm` is exactly half the level-1 value `5.0cm` in the
same physical unit after the fixed px→cm conversion (the pre-conversion pixel
value at level 2 doubled equals the level-1 value, and both are scaled by the
same fixed ÷40 ratio); exactly 6 `child \x7b` tokens, of which 2 lie in each
depth-1 child's subtree (leaving 2 nested directly at the root); and exactly 7
marker node statements `[dot=...]`, one per node, root included (edge-label
annotations contain no `[dot=`). -/
theorem generateTikZ_worked_example :
    countSubstr "sibling distance="
      (generateTikZ sampleNodes sampleEdges DEFAULT_SETTINGS) = 2 ∧
    countSubstr "level 1/.style=\x7bsibling distance=5.0cm"
      (generateTikZ sampleNodes sampleEdges DEFAULT_SETTINGS) = 1 ∧
    countSubstr "level 2/.style=\x7bsibling distance=2.5cm"
      (generateTikZ sampleNodes sampleEdges DEFAULT_SETTINGS) = 1 ∧
    DEFAULT_SETTINGS.siblingDistance / 2 ^ (2 - 1) / 40 * 2
      = DEFAULT_SETTINGS.siblingDistance / 2 ^ (1 - 1) / 40 ∧
    countSubstr "child \x7b"
      (generateTikZ sampleNodes sampleEdges DEFAULT_SETTINGS) = 6 ∧
    countSubstr "child \x7b"
      (generateNode sampleNodes sampleEdges sampleNodes.length
        ⟨"a", some "root", "A", "left", none, "cyan"⟩ 2 false false) = 2 ∧
    countSubstr "child \x7b"
      (generateNode sampleNodes sampleEdges sampleNodes.length
        ⟨"a-bar", some "root", "\\overline\x7bA\x7d", "right", none, "green"⟩
        2 false false) = 2 ∧
    countSubstr "[dot="
      (generateTikZ sampleNodes sampleEdges DEFAULT_SETTINGS) = 7 := by
  decide

/-! ### Mini-LaTeX interpreter (latex-to-native-svg-text.ts) -/

/-- `s[i]` on the character representation of a JS string. -/
def charAt (s : List Char) (i : Nat) : Option Char :=
  s[i]?

/-- `s.slice(a, b)` for nonnegative indices: the characters with index in
`[a, b)` (empty when `b ≤ a`, clamped at the string length). -/
def jsSlice (s : List Char) (a b : Nat) : List Char :=
  (s.take b).drop a

/-- `String.prototype.trim` (the labels fed to the parser only carry ASCII
whitespace at their ends). -/
def jsTrim (l : List Char) : List Char :=
  ((l.dropWhile Char.isWhitespace).reverse.dropWhile Char.isWhitespace).reverse

/-- The scanning loop of `braceContent`, tracking the scan index `j` and the
nested-brace `depth`; runs while `j < s.length && depth > 0` and returns the
final values of both loop variables.  The structural `fuel` stands in for the
loop itself: `j` grows by one per iteration, so any fuel of at least
`s.length - j` gives the loop's exact behavior. -/
def braceScanD (s : List Char) : Nat → Nat → Nat → Nat × Nat
  | 0, j, depth => (j, depth)
  | fuel + 1, j, depth =>
    if j < s.length ∧ 0 < depth then
      let d :=
        if charAt s j = some '\x7b' then depth + 1
        else if charAt s j = some '\x7d' then depth - 1
        else depth
      braceScanD s fuel (j + 1) d
    else (j, depth)

/-- `braceContent` from latex-to-native-svg-text.ts: extract the brace-delimited
content starting at `start`, returning the content and the index after the
closing brace (or after the end of the string when unterminated). -/
def braceContent (s : List Char) (start : Nat) : List Char × Nat :=
  if charAt s start ≠ some '\x7b' then ([], start)
  else
    let r := braceScanD s (s.length + 1) (start + 1) 1
    (jsSlice s (start + 1) (r.1 - 1), r.1)

/-- Token stream of the mini-LaTeX parser (`LatexToken`). -/
inductive LatexToken where
  | text (value : String)
  | frac (num den : String)
  | overline (value : String)
  | bar (value : String)
  | sqrt (value : String)
deriving DecidableEq

/-- The `while (j < s.length && /[a-zA-Z]/.test(s[j])) j++` scan of the
unknown-command fallback (fuel as in `braceScanD`). -/
def alphaEnd (s : List Char) : Nat → Nat → Nat
  | 0, j => j
  | fuel + 1, j =>
    match charAt s j with
    | none => j
    | some c => if c.isAlpha then alphaEnd s fuel (j + 1) else j

/-- The `while (j < s.length && !'\x5c\x7b\x7d_^'.includes(s[j])) j++` scan of
the literal-text run (fuel as in `braceScanD`). -/
def plainEnd (s : List Char) : Nat → Nat → Nat
  | 0, j => j
  | fuel + 1, j =>
    match charAt s j with
    | none => j
    | some c =>
      if ['\\', '\x7b', '\x7d', '_', '^'].contains c then j
      else plainEnd s fuel (j + 1)

/-- The main `while (i < s.length)` loop of `parseLatex`, with fuel: every
branch advances `i` by at least one, so `s.length + 1` iterations always
complete the loop. -/
def parseLatexLoop (s : List Char) : Nat → Nat → List LatexToken
  | 0, _ => []
  | fuel + 1, i =>
    if i < s.length then
      match charAt s i with
      | none => []
      | some c =>
        if c = '\\' then
          let rest := s.drop i
          if "\\dfrac".data.isPrefixOf rest || "\\frac".data.isPrefixOf rest then
            let cmdLen := if "\\dfrac".data.isPrefixOf rest then 6 else 5
            let rNum := braceContent s (i + cmdLen)
            let rDen := braceContent s rNum.2
            .frac (String.mk rNum.1) (String.mk rDen.1)
              :: parseLatexLoop s fuel rDen.2
          else if "\\overline".data.isPrefixOf rest then
            let r := braceContent s (i + 9)
            .overline (String.mk r.1) :: parseLatexLoop s fuel r.2
          else if "\\bar".data.isPrefixOf rest then
            let r := braceContent s (i + 4)
            .bar (String.mk r.1) :: parseLatexLoop s fuel r.2
          else if "\\text".data.isPrefixOf rest then
            let r := braceContent s (i + 5)
            .text (String.mk r.1) :: parseLatexLoop s fuel r.2
          else if "\\sqrt".data.isPrefixOf rest then
            let r := braceContent s (i + 5)
            .sqrt (String.mk r.1) :: parseLatexLoop s fuel r.2
          else
            let j := alphaEnd s (s.length + 1) (i + 1)
            .text (String.mk (jsSlice s i j)) :: parseLatexLoop s fuel j
        else if c = '\x7b' ∨ c = '\x7d' then
          parseLatexLoop s fuel (i + 1)
        else if c = '_' ∨ c = '^' then
          let i1 := i + 1
          match charAt s i1 with
          | none => parseLatexLoop s fuel i1
          | some c1 =>
            if c1 = '\x7b' then
              let r := braceContent s i1
              .text (String.mk r.1) :: parseLatexLoop s fuel r.2
            else
              .text (String.mk [c1]) :: parseLatexLoop s fuel (i1 + 1)
        else
          let j := plainEnd s (s.length + 1) i
          .text (String.mk (jsSlice s i j)) :: parseLatexLoop s fuel j
    else []

/-- `parseLatex` from latex-to-native-svg-text.ts: trim, then scan from index 0. -/
def parseLatex (input : String) : List LatexToken :=
  let s := jsTrim input.data
  parseLatexLoop s (s.length + 1) 0

/-- C5: the parser produces exactly one `overline` token with content "AB" on
`\overline\x7bAB\x7d`, exactly one `frac` token with numerator "1" and
denominator "2" on `\dfrac\x7b1\x7d\x7b2\x7d`, a single text token on a plain
string, and on the unterminated input `\text\x7babc` it returns (total function,
hence without throwing) the best-effort token list whose brace scan stopped at
the end of the string. -/
theorem parseLatex_examples :
    parseLatex "\\overline\x7bAB\x7d" = [.overline "AB"] ∧
    parseLatex "\\dfrac\x7b1\x7d\x7b2\x7d" = [.frac "1" "2"] ∧
    parseLatex "plain" = [.text "plain"] ∧
    parseLatex "\\text\x7babc" = [.text "ab"] := by
  decide

theorem braceScanD_exit (s : List Char) :
    ∀ fuel j d, s.length ≤ fuel + j → j ≤ s.length →
      (braceScanD s fuel j d).1 = s.length ∨ (braceScanD s fuel j d).2 = 0 := by
  intro fuel
  induction fuel with
  | zero =>
    intro j d h1 h2
    have : j = s.length := by omega
    subst this
    exact Or.inl rfl
  | succ fuel ih =>
    intro j d h1 h2
    have heq : braceScanD s (fuel + 1) j d =
        if j < s.length ∧ 0 < d then
          braceScanD s fuel (j + 1)
            (if charAt s j = some '\x7b' then d + 1
             else if charAt s j = some '\x7d' then d - 1 else d)
        else (j, d) := rfl
    rw [heq]
    by_cases h : j < s.length ∧ 0 < d
    · rw [if_pos h]
      exact ih (j + 1) _ (by omega) (by omega)
    · rw [if_neg h]
      rcases Decidable.not_and_iff_or_not.mp h with h' | h'
      · exact Or.inl (show j = s.length by omega)
      · exact Or.inr (show d = 0 by omega)

/-- C9: whenever the brace group opened at `start` is unterminated (the scan
reaches the end of the string with positive nesting depth), `braceContent`
returns the scanned content with the final character of the input omitted —
it slices up to the final scan index minus one, as if a closing brace had been
consumed — together with the end-of-string index; in particular
`parseLatex "\text\x7babc"` yields the text token "ab", not "abc". -/
theorem braceContent_unterminated (s : List Char) (start : Nat)
    (hopen : charAt s start = some '\x7b')
    (hdepth : 0 < (braceScanD s (s.length + 1) (start + 1) 1).2) :
    braceContent s start = (jsSlice s (start + 1) (s.length - 1), s.length) ∧
    parseLatex "\\text\x7babc" = [.text "ab"] := by
  refine ⟨?_, by decide⟩
  have hlt : start < s.length := by
    by_contra hc
    push_neg at hc
    rw [charAt, List.getElem?_eq_none hc] at hopen
    cases hopen
  have hexit := braceScanD_exit s (s.length + 1) (start + 1) 1 (by omega) (by omega)
  have h1 : (braceScanD s (s.length + 1) (start + 1) 1).1 = s.length := by
    rcases hexit with h | h
    · exact h
    · omega
  rw [braceContent, if_neg (by simp [hopen])]
  show (jsSlice s (start + 1) ((braceScanD s (s.length + 1) (start + 1) 1).1 - 1),
        (braceScanD s (s.length + 1) (start + 1) 1).1)
      = (jsSlice s (start + 1) (s.length - 1), s.length)
  rw [h1]

/-- C9 witness: `braceContent` on the unterminated input `\text\x7babc` at the
opening brace (index 5) captures "ab" — the final character "c" is dropped —
and reports the end-of-string index 9. -/
theorem braceContent_unterminated_witness :
    braceContent "\\text\x7babc".data 5 = ("ab".data, 9) := by
  have h := (braceContent_unterminated "\\text\x7babc".data 5 (by decide) (by decide)).1
  rw [h]
  decide

/-! ### Vector exporter scene model (export-svg.ts / latex-to-native-svg-text.ts)

The live scene is a DOM tree; the exporter clones it, replaces every
`foreignObject` label host with native SVG primitives built from the label's
stored LaTeX source, and removes the hosts.  The tree is modeled element-wise;
attribute values are strings (coordinates through the same number rendering the
generator uses — their exact text plays no role in the exporter invariant). -/

/-- DOM element tree: element nodes with tag, attributes and children, plus
text nodes. -/
inductive XmlNode where
  | elem (tag : String) (attrs : List (String × String)) (children : List XmlNode)
  | text (content : String)

/-- `getAttribute` (first matching attribute, `none` when absent). -/
def getAttr (attrs : List (String × String)) (name : String) : Option String :=
  (attrs.find? (fun p => p.1 == name)).map Prod.snd

/-- `parseFloat(a || '0')` for the decimal attribute strings the canvas writes
(optional sign, digits, optional fraction).  Exotic inputs (for which JS would
produce `NaN`) fall back to their parsed prefix or `0`; the exporter invariant
does not depend on the parsed value. -/
def parseFloatQ (s : String) : ℚ :=
  let l := s.data
  let core : List Char → ℚ := fun l =>
    let intPart := l.takeWhile Char.isDigit
    let rest := l.dropWhile Char.isDigit
    let frac :=
      match rest with
      | '.' :: r => r.takeWhile Char.isDigit
      | _ => []
    let dval : List Char → Nat := fun ds => ds.foldl (fun acc c => acc * 10 + (c.toNat - 48)) 0
    (dval intPart : ℚ) + (dval frac : ℚ) / (10 : ℚ) ^ frac.length
  match l with
  | '-' :: rest => -(core rest)
  | _ => core l

/-- `FONT_STYLE` from latex-to-native-svg-text.ts. -/
def FONT_STYLE : String :=
  "font-family: 'Times New Roman', Times, serif; font-style: italic; font-size: 14px;"

/-- `makeText` from latex-to-native-svg-text.ts: an SVG `text` element at the
given coordinates with the italic font style and the extra attributes. -/
def makeText (x y : ℚ) (content : String) (extra : List (String × String)) : XmlNode :=
  .elem "text"
    ([("x", jsNumToString x), ("y", jsNumToString y),
      ("dominant-baseline", "central"), ("style", FONT_STYLE)] ++ extra)
    [.text content]

/-- `getTextAnchor` from latex-to-native-svg-text.ts. -/
def getTextAnchor (labelPosition : String) : String :=
  if labelPosition == "right" then "start"
  else if labelPosition == "left" then "end"
  else "middle"

/-- An SVG `line` element as the renderer draws fraction bars and overlines. -/
def lineElem (x1 x2 y1 y2 : ℚ) (width : String) : XmlNode :=
  .elem "line"
    [("x1", jsNumToString x1), ("x2", jsNumToString x2),
     ("y1", jsNumToString y1), ("y2", jsNumToString y2),
     ("stroke", "black"), ("stroke-width", width)] []

/-- `tokenWidth` from latex-to-native-svg-text.ts (`CHAR_WIDTH = 7`). -/
def tokenWidth (tok : LatexToken) : ℚ :=
  match tok with
  | .frac num den => (max num.length den.length : ℚ) * 7 + 4
  | .overline v => (v.length : ℚ) * 7 + 2
  | .bar v => (v.length : ℚ) * 7 + 2
  | .sqrt v => (v.length : ℚ) * 7 + 10
  | .text v => (v.length : ℚ) * 7

/-- `String.prototype.includes`, on the character representation. -/
def listHasInfix (pat : List Char) : List Char → Bool
  | [] => pat.isEmpty
  | c :: rest => pat.isPrefixOf (c :: rest) || listHasInfix pat rest

/-- The anchored regex `^\\text\s*\x7b(.+)\x7d$` of `createSvgLabelElement`:
`\text`, optional whitespace, then a brace group whose closing brace is the
final character with non-empty content. -/
def matchTextBlock (l : List Char) : Option (List Char) :=
  if "\\text".data.isPrefixOf l then
    match (l.drop 5).dropWhile Char.isWhitespace with
    | '\x7b' :: r =>
      match r.reverse with
      | '\x7d' :: middleRev => if middleRev.isEmpty then none else some middleRev.reverse
      | _ => none
    | _ => none
  else none

/-- `content.split('\\\\')`: split on each two-character `\\` separator. -/
def splitDoubleBackslash : List Char → List (List Char)
  | [] => [[]]
  | '\\' :: '\\' :: rest => [] :: splitDoubleBackslash rest
  | c :: rest =>
    match splitDoubleBackslash rest with
    | [] => [[c]]
    | h :: t => (c :: h) :: t

/-- `createMultilineSvgLabel` from latex-to-native-svg-text.ts: stacked upright
text lines inside a group, with a white background rectangle for `center`. -/
def createMultilineSvgLabel (lines : List String) (cx cy : ℚ)
    (labelPosition : String) : XmlNode :=
  let anchor := getTextAnchor labelPosition
  let lineHeight : ℚ := 18
  let totalHeight := (lines.length : ℚ) * lineHeight
  let startY := cy - totalHeight / 2 + lineHeight / 2
  let maxWidth := ((lines.map (fun l => l.length * 7)).foldl max 0 : Nat)
  let textLines := (List.range lines.length).map (fun i =>
    .elem "text"
      [("x", jsNumToString cx), ("y", jsNumToString (startY + (i : ℚ) * lineHeight)),
       ("dominant-baseline", "central"), ("text-anchor", anchor),
       ("style", "font-family: 'Times New Roman', Times, serif; font-size: 14px;")]
      [XmlNode.text (lines.getD i "")])
  let bg : List XmlNode :=
    if labelPosition == "center" then
      [.elem "rect"
        [("x", jsNumToString (cx - (maxWidth : ℚ) / 2 - 4)),
         ("y", jsNumToString (cy - totalHeight / 2 - 3)),
         ("width", jsNumToString ((maxWidth : ℚ) + 8)),
         ("height", jsNumToString (totalHeight + 6)),
         ("fill", "white")] []]
    else []
  .elem "g" [] (bg ++ textLines)

/-- The token-group assembly loop of `createSvgLabelElement` (the `for` loop
over tokens, threading the accumulated children and the running `xOff`). -/
def labelGroupStep (cy startX : ℚ) (acc : List XmlNode × ℚ) (tok : LatexToken) :
    List XmlNode × ℚ :=
  let x := startX + acc.2
  match tok with
  | .text v => (acc.1 ++ [makeText x cy v []], acc.2 + (v.length : ℚ) * 7)
  | .frac num den =>
    let fw := (max num.length den.length : ℚ) * 7
    let fcx := x + fw / 2
    (acc.1
       ++ [makeText fcx (cy - 8) num
             [("text-anchor", "middle"), ("dominant-baseline", "auto")],
           lineElem (fcx - fw / 2 - 1) (fcx + fw / 2 + 1) (cy - 2) (cy - 2) "0.8",
           makeText fcx (cy + 4) den
             [("text-anchor", "middle"), ("dominant-baseline", "hanging")]],
     acc.2 + fw + 4)
  | .overline v =>
    let w := (v.length : ℚ) * 7
    (acc.1 ++ [makeText x cy v [], lineElem (x - 1) (x + w + 1) (cy - 7) (cy - 7) "1"],
     acc.2 + w + 2)
  | .bar v => (acc.1 ++ [makeText x cy (v ++ "̄") []], acc.2 + (v.length : ℚ) * 7 + 2)
  | .sqrt v =>
    let w := (v.length : ℚ) * 7
    (acc.1
       ++ [.elem "path"
             [("d", "M" ++ jsNumToString x ++ "," ++ jsNumToString (cy + 2)
                 ++ " L" ++ jsNumToString (x + 3) ++ "," ++ jsNumToString (cy + 6)
                 ++ " L" ++ jsNumToString (x + 6) ++ "," ++ jsNumToString (cy - 10)
                 ++ " L" ++ jsNumToString (x + 8 + w) ++ "," ++ jsNumToString (cy - 10)),
              ("stroke", "black"), ("stroke-width", "0.8"), ("fill", "none")] [],
           makeText (x + 8) cy v []],
     acc.2 + w + 10)

/-- The complex-expression tail of `createSvgLabelElement`: group the rendered
tokens, with a white background rectangle first for `center` labels. -/
def createSvgLabelGroup (tokens : List LatexToken) (cx cy : ℚ)
    (labelPosition anchor : String) : XmlNode :=
  let totalW := (tokens.map tokenWidth).foldl (· + ·) 0
  let startX :=
    if anchor == "end" then cx - totalW
    else if anchor == "start" then cx
    else cx - totalW / 2
  let children := (tokens.foldl (labelGroupStep cy startX) ([], 0)).1
  let children2 :=
    if labelPosition == "center" then
      .elem "rect"
        [("x", jsNumToString (startX - 3)), ("y", jsNumToString (cy - 12)),
         ("width", jsNumToString (totalW + 6)), ("height", "24"), ("fill", "white")] []
        :: children
    else children
  .elem "g" [] children2

/-- `createSvgLabelElement` without the multiline shortcut: the single-token
fast path (plain text or bar accent as one `text` element, with the white
halo attributes for `center`), falling back to the grouped rendering. -/
def createSvgLabelMain (latex : String) (cx cy : ℚ) (labelPosition : String) : XmlNode :=
  let tokens := parseLatex latex
  let anchor := getTextAnchor labelPosition
  let single : Option XmlNode :=
    match tokens with
    | [tok] =>
      let content :=
        match tok with
        | .text v => v
        | .bar v => v ++ "̄"
        | _ => ""
      if content != "" then
        some (makeText cx cy content
          (("text-anchor", anchor) ::
            (if labelPosition == "center" then
              [("paint-order", "stroke"), ("stroke", "white"),
               ("stroke-width", "4"), ("fill", "black")]
            else [])))
      else none
    | _ => none
  match single with
  | some t => t
  | none => createSvgLabelGroup tokens cx cy labelPosition anchor

/-- `createSvgLabelElement` from latex-to-native-svg-text.ts: multiline
`\text\x7b...\\...\x7d` becomes stacked lines, everything else goes through the
token renderer. -/
def createSvgLabelElement (latex : String) (cx cy : ℚ) (labelPosition : String) : XmlNode :=
  match matchTextBlock latex.data with
  | some content =>
    if listHasInfix "\\\\".data content then
      createMultilineSvgLabel ((splitDoubleBackslash content).map (fun l => String.mk (jsTrim l)))
        cx cy labelPosition
    else createSvgLabelMain latex cx cy labelPosition
  | none => createSvgLabelMain latex cx cy labelPosition

mutual
/-- Number of elements with the given tag in the tree. -/
def countTag (tag : String) : XmlNode → Nat
  | .text _ => 0
  | .elem t _ children => (if t == tag then 1 else 0) + countTagList tag children

/-- `countTag` over a children list. -/
def countTagList (tag : String) : List XmlNode → Nat
  | [] => 0
  | c :: rest => countTag tag c + countTagList tag rest
end

/-- Whether a node is a `foreignObject` element. -/
def isFO : XmlNode → Bool
  | .elem t _ _ => t == "foreignObject"
  | .text _ => false

mutual
/-- Attribute lists of all `foreignObject` descendants, in document order
(`querySelectorAll('foreignObject')`). -/
def collectFO : XmlNode → List (List (String × String))
  | .text _ => []
  | .elem t attrs children =>
    (if t == "foreignObject" then [attrs] else []) ++ collectFOList children

/-- `collectFO` over a children list. -/
def collectFOList : List XmlNode → List (List (String × String))
  | [] => []
  | c :: rest => collectFO c ++ collectFOList rest
end

mutual
/-- Remove every `foreignObject` element from the tree (`fo.remove()` applied
to each collected host; removing an ancestor also removes its nested hosts). -/
def removeFO : XmlNode → XmlNode
  | .text s => .text s
  | .elem t attrs children => .elem t attrs (removeFOList children)

/-- `removeFO` over a children list, dropping `foreignObject` elements. -/
def removeFOList : List XmlNode → List XmlNode
  | [] => []
  | c :: rest =>
    if isFO c then removeFOList rest else removeFO c :: removeFOList rest
end

/-- Append nodes to the root's child list (`clone.appendChild`). -/
def appendChildren : XmlNode → List XmlNode → XmlNode
  | .elem t attrs children, more => .elem t attrs (children ++ more)
  | .text s, _ => .text s

/-- The native label replacements the exporter builds: one per `foreignObject`
carrying a non-empty `data-original-text`, anchored per the stored alignment
metadata (export-svg, foreignObject-replacement loop). -/
def exportSvgLabels (scene : XmlNode) : List XmlNode :=
  (collectFO scene).filterMap (fun attrs =>
    let originalText := (getAttr attrs "data-original-text").getD ""
    if originalText == "" then none
    else
      let contentX := parseFloatQ ((getAttr attrs "data-content-x").getD "0")
      let contentY := parseFloatQ ((getAttr attrs "data-content-y").getD "0")
      let textAlign := (getAttr attrs "data-text-align").getD "center"
      let labelPosition := (getAttr attrs "data-label-position").getD ""
      let cx :=
        if textAlign == "right" then contentX + 80
        else if textAlign == "left" then contentX
        else contentX + 40
      let cy :=
        if labelPosition == "left" ∨ labelPosition == "right" ∨ labelPosition == "center"
        then contentY + 15
        else contentY + 5
      some (createSvgLabelElement originalText cx cy labelPosition))

/-- The foreignObject-replacement step of `exportSvg`: every `foreignObject`
with a non-empty `data-original-text` contributes a native replacement appended
to the clone root, and every `foreignObject` is removed. -/
def exportSvgReplaceLabels (scene : XmlNode) : XmlNode :=
  appendChildren (removeFO scene) (exportSvgLabels scene)

/-- The scene carries at least one non-empty label. -/
def hasNonEmptyLabel (scene : XmlNode) : Bool :=
  (collectFO scene).any (fun attrs => (getAttr attrs "data-original-text").getD "" != "")

theorem countTagList_append (tag : String) (l1 l2 : List XmlNode) :
    countTagList tag (l1 ++ l2) = countTagList tag l1 + countTagList tag l2 := by
  induction l1 with
  | nil => simp [countTagList]
  | cons c rest ih => simp [countTagList, ih]; omega

theorem countTagList_eq_zero {tag : String} {l : List XmlNode}
    (h : ∀ x ∈ l, countTag tag x = 0) : countTagList tag l = 0 := by
  induction l with
  | nil => rfl
  | cons c rest ih =>
    show countTag tag c + countTagList tag rest = 0
    rw [h c (List.mem_cons_self _ _), ih (fun x hx => h x (List.mem_cons_of_mem _ hx))]

theorem countTagList_cons (tag : String) (c : XmlNode) (l : List XmlNode) :
    countTagList tag (c :: l) = countTag tag c + countTagList tag l := rfl

theorem countTag_elem_notfo (tg : String) (attrs : List (String × String))
    (l : List XmlNode) (h : (tg == "foreignObject") = false) :
    countTag "foreignObject" (XmlNode.elem tg attrs l)
      = countTagList "foreignObject" l := by
  show (if (tg == "foreignObject") = true then 1 else 0) + _ = _
  rw [h]
  simp

theorem countTag_makeText (x y : ℚ) (c : String) (e : List (String × String)) :
    countTag "foreignObject" (makeText x y c e) = 0 := rfl

theorem countTag_lineElem (x1 x2 y1 y2 : ℚ) (w : String) :
    countTag "foreignObject" (lineElem x1 x2 y1 y2 w) = 0 := rfl

theorem labelGroupStep_count (cy startX : ℚ) (acc : List XmlNode × ℚ) (tok : LatexToken)
    (h : countTagList "foreignObject" acc.1 = 0) :
    countTagList "foreignObject" (labelGroupStep cy startX acc tok).1 = 0 := by
  cases tok <;>
    simp [labelGroupStep, countTagList_append, countTagList_cons, h, makeText,
      lineElem, countTag, countTagList]

theorem labelGroup_foldl_count (cy startX : ℚ) (ts : List LatexToken) :
    ∀ acc : List XmlNode × ℚ, countTagList "foreignObject" acc.1 = 0 →
      countTagList "foreignObject" (ts.foldl (labelGroupStep cy startX) acc).1 = 0 := by
  induction ts with
  | nil => intro acc h; exact h
  | cons t rest ih =>
    intro acc h
    exact ih _ (labelGroupStep_count cy startX acc t h)

theorem countTag_createSvgLabelGroup (tokens : List LatexToken) (cx cy : ℚ)
    (pos anchor : String) :
    countTag "foreignObject" (createSvgLabelGroup tokens cx cy pos anchor) = 0 := by
  simp only [createSvgLabelGroup]
  rw [countTag_elem_notfo _ _ _ (by decide)]
  split
  · rw [countTagList_cons, countTag_elem_notfo _ _ _ (by decide),
      labelGroup_foldl_count _ _ tokens ([], 0) rfl]
    rfl
  · exact labelGroup_foldl_count _ _ tokens ([], 0) rfl

theorem countTag_createMultilineSvgLabel (lines : List String) (cx cy : ℚ)
    (pos : String) :
    countTag "foreignObject" (createMultilineSvgLabel lines cx cy pos) = 0 := by
  simp only [createMultilineSvgLabel]
  rw [countTag_elem_notfo _ _ _ (by decide), countTagList_append]
  have h1 : ∀ l1 : List XmlNode,
      (∀ x ∈ l1, countTag "foreignObject" x = 0) →
      ∀ l2 : List XmlNode, (∀ x ∈ l2, countTag "foreignObject" x = 0) →
      countTagList "foreignObject" l1 + countTagList "foreignObject" l2 = 0 := by
    intro l1 hl1 l2 hl2
    rw [countTagList_eq_zero hl1, countTagList_eq_zero hl2]
  apply h1
  · intro x hx
    split at hx
    · rcases List.mem_singleton.mp hx with rfl
      rfl
    · cases hx
  · intro x hx
    rcases List.mem_map.mp hx with ⟨i, _, hi⟩
    rw [← hi]
    rfl

theorem countTag_createSvgLabelMain (latex : String) (cx cy : ℚ) (pos : String) :
    countTag "foreignObject" (createSvgLabelMain latex cx cy pos) = 0 := by
  simp only [createSvgLabelMain]
  split
  case _ t heq =>
    split at heq
    case _ tok =>
      split at heq
      · cases heq
        exact countTag_makeText _ _ _ _
      · cases heq
    case _ => cases heq
  case _ heq =>
    exact countTag_createSvgLabelGroup _ _ _ _ _

theorem countTag_createSvgLabelElement (latex : String) (cx cy : ℚ) (pos : String) :
    countTag "foreignObject" (createSvgLabelElement latex cx cy pos) = 0 := by
  rw [createSvgLabelElement]
  split
  · split
    · exact countTag_createMultilineSvgLabel _ _ _ _
    · exact countTag_createSvgLabelMain _ _ _ _
  · exact countTag_createSvgLabelMain _ _ _ _

mutual
theorem countTag_removeFO (t : XmlNode) (h : isFO t = false) :
    countTag "foreignObject" (removeFO t) = 0 :=
  match t with
  | .text _ => rfl
  | .elem tg attrs children => by
    show (if (tg == "foreignObject") = true then 1 else 0)
        + countTagList "foreignObject" (removeFOList children) = 0
    rw [if_neg (by simpa [isFO] using h), countTagList_removeFOList children]

theorem countTagList_removeFOList (l : List XmlNode) :
    countTagList "foreignObject" (removeFOList l) = 0 :=
  match l with
  | [] => rfl
  | c :: rest => by
    show countTagList "foreignObject"
        (if isFO c then removeFOList rest else removeFO c :: removeFOList rest) = 0
    by_cases hc : isFO c
    · rw [if_pos hc]
      exact countTagList_removeFOList rest
    · rw [if_neg hc]
      show countTag "foreignObject" (removeFO c)
          + countTagList "foreignObject" (removeFOList rest) = 0
      rw [countTag_removeFO c (by simpa using hc), countTagList_removeFOList rest]
end

theorem length_filterMap_eq_filter {α β : Type} (f : α → Option β) (p : α → Bool)
    (h : ∀ a, (f a).isSome = p a) (l : List α) :
    (l.filterMap f).length = (l.filter p).length := by
  induction l with
  | nil => rfl
  | cons a rest ih =>
    by_cases hp : p a
    · rcases Option.isSome_iff_exists.mp ((h a).symm ▸ hp) with ⟨b, hb⟩
      rw [List.filterMap_cons_some hb, List.filter_cons_of_pos hp]
      simpa using ih
    · have hn : f a = none := by
        cases hf : f a with
        | none => rfl
        | some b => rw [← h a, hf] at hp; exact absurd rfl hp
      rw [List.filterMap_cons_none hn, List.filter_cons_of_neg (by simpa using hp)]
      exact ih

/-- C6: for every scene (an `svg` root) containing at least one non-empty
label, the vector exporter's foreignObject-replacement step leaves zero
`foreignObject` (embedded-HTML) elements in the cleaned scene: every
`foreignObject` carrying a non-empty `data-original-text` is replaced by a
native label element built from SVG text/line/path/rect primitives appended to
the root (one replacement per such host — second conjunct), and every
`foreignObject` host, labeled or not, is removed outright. -/
theorem exportSvg_no_foreignObject (attrs : List (String × String))
    (children : List XmlNode)
    (hlabel : hasNonEmptyLabel (XmlNode.elem "svg" attrs children) = true) :
    countTag "foreignObject"
        (exportSvgReplaceLabels (XmlNode.elem "svg" attrs children)) = 0 ∧
    (exportSvgLabels (XmlNode.elem "svg" attrs children)).length
      = ((collectFO (XmlNode.elem "svg" attrs children)).filter
          (fun a => (getAttr a "data-original-text").getD "" != "")).length := by
  constructor
  · show countTag "foreignObject"
        (appendChildren (removeFO (XmlNode.elem "svg" attrs children))
          (exportSvgLabels (XmlNode.elem "svg" attrs children))) = 0
    show (if ("svg" == "foreignObject") = true then 1 else 0)
        + countTagList "foreignObject"
            (removeFOList children ++ exportSvgLabels (XmlNode.elem "svg" attrs children)) = 0
    rw [if_neg (by decide), countTagList_append, countTagList_removeFOList]
    have hz : countTagList "foreignObject"
        (exportSvgLabels (XmlNode.elem "svg" attrs children)) = 0 := by
      apply countTagList_eq_zero
      intro x hx
      rcases List.mem_filterMap.mp hx with ⟨a, _, ha⟩
      dsimp only at ha
      split at ha
      · cases ha
      · cases ha
        exact countTag_createSvgLabelElement _ _ _ _
    rw [hz]
  · apply length_filterMap_eq_filter
    intro a
    dsimp only
    split
    next he => simp [bne, he]
    next he => simp [bne, he]

/-- C6 witness: a concrete scene with one labeled `foreignObject` host. -/
theorem exportSvg_no_foreignObject_witness :
    countTag "foreignObject"
        (exportSvgReplaceLabels (XmlNode.elem "svg" []
          [XmlNode.elem "g" []
            [XmlNode.elem "foreignObject"
              [("data-original-text", "A"), ("data-content-x", "10"),
               ("data-content-y", "20"), ("data-text-align", "center"),
               ("data-label-position", "above")]
              [XmlNode.elem "div" [] [XmlNode.text "A"]]]])) = 0 ∧
    (exportSvgLabels (XmlNode.elem "svg" []
        [XmlNode.elem "g" []
          [XmlNode.elem "foreignObject"
            [("data-original-text", "A"), ("data-content-x", "10"),
             ("data-content-y", "20"), ("data-text-align", "center"),
             ("data-label-position", "above")]
            [XmlNode.elem "div" [] [XmlNode.text "A"]]]])).length = 1 := by
  have h := exportSvg_no_foreignObject []
    [XmlNode.elem "g" []
      [XmlNode.elem "foreignObject"
        [("data-original-text", "A"), ("data-content-x", "10"),
         ("data-content-y", "20"), ("data-text-align", "center"),
         ("data-label-position", "above")]
        [XmlNode.elem "div" [] [XmlNode.text "A"]]]] (by decide)
  refine ⟨h.1, ?_⟩
  rw [h.2]
  decide

/-! ### Size of the layout output (claim C7) -/

theorem mem_childrenOf {nodes : List TreeNode} {pid : String} {c : TreeNode} :
    c ∈ childrenOf nodes pid ↔ c ∈ nodes ∧ c.parentId = some pid := by
  simp [childrenOf, List.mem_filter]

theorem reachWithin_zero_iff {nodes : List TreeNode} {m n : TreeNode} :
    reachWithin nodes m n 0 = true ↔ m = n := by
  rw [reachWithin_iff]
  constructor
  · rintro ⟨j, hj, h⟩
    interval_cases j
    exact Option.some_injective _ h
  · rintro rfl
    exact ⟨0, le_refl 0, rfl⟩

theorem chain_linear {nodes : List TreeNode} {m c1 c2 : TreeNode} {j1 j2 : Nat}
    (hle : j1 ≤ j2) (h1 : iterParent nodes j1 m = some c1)
    (h2 : iterParent nodes j2 m = some c2) :
    iterParent nodes (j2 - j1) c1 = some c2 := by
  have hsplit : j2 = j1 + (j2 - j1) := by omega
  rw [hsplit, iterParent_add, h1] at h2
  exact h2

theorem children_reach_eq {nodes : List TreeNode} (hnd : idsNodup nodes)
    (hacyc : ∀ x ∈ nodes, ∀ k, iterParent nodes (k + 1) x ≠ some x)
    {n c1 c2 : TreeNode} (hn : n ∈ nodes)
    (hc1 : c1 ∈ childrenOf nodes n.id) (hc2 : c2 ∈ childrenOf nodes n.id)
    {k : Nat} (h : iterParent nodes k c1 = some c2) : c1 = c2 := by
  cases k with
  | zero => exact Option.some_injective _ h
  | succ k =>
    exfalso
    have hp1 : parentOf nodes c1 = some n :=
      parentOf_child hnd hn (mem_childrenOf.mp hc1).2
    have hp2 : parentOf nodes c2 = some n :=
      parentOf_child hnd hn (mem_childrenOf.mp hc2).2
    have hstep : iterParent nodes (k + 2) c1 = some n := by
      have := iterParent_succ_far nodes (k + 1) c1
      rw [h, Option.some_bind, hp2] at this
      exact this
    have hone : iterParent nodes 1 c1 = some n := by
      show (parentOf nodes c1).bind (iterParent nodes 0) = some n
      rw [hp1]
      rfl
    have hcomb : iterParent nodes (k + 2) c1 = iterParent nodes (k + 1) n := by
      have h2 := iterParent_add nodes 1 (k + 1) c1
      rw [hone, Option.some_bind] at h2
      have h3 : (1 : Nat) + (k + 1) = k + 2 := by omega
      rw [h3] at h2
      exact h2
    rw [hcomb] at hstep
    exact hacyc n hn k hstep

theorem not_reach_own_child {nodes : List TreeNode} (hnd : idsNodup nodes)
    (hacyc : ∀ x ∈ nodes, ∀ k, iterParent nodes (k + 1) x ≠ some x)
    {n c : TreeNode} (hn : n ∈ nodes) (hc : c ∈ childrenOf nodes n.id) (f : Nat) :
    ¬ reachWithin nodes n c f = true := by
  intro h
  rcases reachWithin_iff.mp h with ⟨j, _, hj⟩
  have hp : parentOf nodes c = some n := parentOf_child hnd hn (mem_childrenOf.mp hc).2
  have : iterParent nodes (j + 1) n = some n := by
    rw [iterParent_succ_far, hj, Option.some_bind, hp]
  exact hacyc n hn j this

theorem reachWithin_succ_iff {nodes : List TreeNode} (hnd : idsNodup nodes)
    {m n : TreeNode} (hm : m ∈ nodes) (hn : n ∈ nodes) (f : Nat) :
    reachWithin nodes m n (f + 1) = true ↔
      m = n ∨ ∃ c ∈ childrenOf nodes n.id, reachWithin nodes m c f = true := by
  constructor
  · intro h
    rcases reachWithin_iff.mp h with ⟨j, hj, hiter⟩
    cases j with
    | zero => exact Or.inl (Option.some_injective _ hiter)
    | succ j =>
      right
      rw [iterParent_succ_far] at hiter
      rcases Option.bind_eq_some.mp hiter with ⟨c, hc, hpc⟩
      have hcmem : c ∈ nodes := iterParent_mem hm hc
      have hcpar : c.parentId = some n.id := by
        unfold parentOf at hpc
        cases hpid : c.parentId with
        | none => rw [hpid] at hpc; cases hpc
        | some pid =>
          rw [hpid] at hpc
          rw [(findById_eq_some hpc).2]
      exact ⟨c, mem_childrenOf.mpr ⟨hcmem, hcpar⟩,
        reachWithin_iff.mpr ⟨j, by omega, hc⟩⟩
  · intro h
    rcases h with rfl | ⟨c, hc, hreach⟩
    · exact reachWithin_iff.mpr ⟨0, by omega, rfl⟩
    · rcases reachWithin_iff.mp hreach with ⟨j, hj, hiter⟩
      refine reachWithin_iff.mpr ⟨j + 1, by omega, ?_⟩
      rw [iterParent_succ_far, hiter, Option.some_bind]
      exact parentOf_child hnd hn (mem_childrenOf.mp hc).2

theorem length_filter_or_disjoint {α : Type} (l : List α) (p q : α → Bool)
    (h : ∀ a ∈ l, ¬(p a = true ∧ q a = true)) :
    (l.filter (fun a => p a || q a)).length
      = (l.filter p).length + (l.filter q).length := by
  induction l with
  | nil => rfl
  | cons a rest ih =>
    have ih' := ih (fun x hx => h x (List.mem_cons_of_mem _ hx))
    have ha := h a (List.mem_cons_self _ _)
    by_cases hp : p a = true
    · have hq : ¬ q a = true := fun hq => ha ⟨hp, hq⟩
      rw [List.filter_cons_of_pos (by simp [hp]), List.filter_cons_of_pos hp,
        List.filter_cons_of_neg hq]
      simp [ih']
      omega
    · by_cases hq : q a = true
      · rw [List.filter_cons_of_pos (by simp [hq]), List.filter_cons_of_neg hp,
          List.filter_cons_of_pos hq]
        simp [ih']
        omega
      · rw [List.filter_cons_of_neg (by simp [hp, hq]), List.filter_cons_of_neg hp,
          List.filter_cons_of_neg hq]
        exact ih'

theorem length_filter_anyList {α β : Type} (l : List α) (g : α → β → Bool) :
    ∀ cs : List β, cs.Nodup →
      (∀ a ∈ l, ∀ c1 ∈ cs, ∀ c2 ∈ cs, c1 ≠ c2 →
        ¬(g a c1 = true ∧ g a c2 = true)) →
      (l.filter (fun a => cs.any (fun c => g a c))).length
        = (cs.map (fun c => (l.filter (fun a => g a c)).length)).sum := by
  intro cs
  induction cs with
  | nil =>
    intro _ _
    simp
  | cons c rest ih =>
    intro hnd hdisj
    have hcnotin : c ∉ rest := (List.nodup_cons.mp hnd).1
    have hstep : (l.filter (fun a => g a c || rest.any (fun c' => g a c'))).length
        = (l.filter (fun a => g a c)).length
          + (l.filter (fun a => rest.any (fun c' => g a c'))).length := by
      apply length_filter_or_disjoint
      intro a hal ⟨h1, h2⟩
      rcases List.any_eq_true.mp h2 with ⟨c2, hc2, hg2⟩
      exact hdisj a hal c (List.mem_cons_self _ _) c2 (List.mem_cons_of_mem _ hc2)
        (fun hcc => hcnotin (hcc ▸ hc2)) ⟨h1, hg2⟩
    have hrest := ih (List.nodup_cons.mp hnd).2
      (fun a ha c1 h1 c2 h2 => hdisj a ha c1 (List.mem_cons_of_mem _ h1)
        c2 (List.mem_cons_of_mem _ h2))
    simp only [List.any_cons, List.map_cons, List.sum_cons]
    rw [hstep, hrest]

theorem count_id_filter {nodes : List TreeNode} (hnd : idsNodup nodes)
    {n : TreeNode} (hn : n ∈ nodes) :
    (nodes.filter (fun m => m == n)).length = 1 := by
  have hndL : nodes.Nodup := List.Nodup.of_map _ hnd
  rw [← List.countP_eq_length_filter]
  exact List.count_eq_one_of_mem hndL hn

theorem buildSubtree_layout_length (nodes : List TreeNode) (s : TreeSettings)
    (hnd : idsNodup nodes)
    (hacyc : ∀ x ∈ nodes, ∀ k, iterParent nodes (k + 1) x ≠ some x) :
    ∀ f, ∀ n ∈ nodes, ∀ (x y : ℚ) (d : Nat),
      (layoutNode s (buildSubtree nodes f n) x y d).length
        = (nodes.filter (fun m => reachWithin nodes m n f)).length := by
  intro f
  induction f with
  | zero =>
    intro n hn x y d
    have hfix : nodes.filter (fun m => reachWithin nodes m n 0)
        = nodes.filter (fun m => m == n) := by
      apply List.filter_congr
      intro m _
      rw [Bool.eq_iff_iff, reachWithin_zero_iff, beq_iff_eq]
    rw [hfix, count_id_filter hnd hn]
    rfl
  | succ f ih =>
    intro n hn x y d
    have hndL : nodes.Nodup := List.Nodup.of_map _ hnd
    have hcsnd : (childrenOf nodes n.id).Nodup := List.Nodup.filter _ hndL
    have hfix : nodes.filter (fun m => reachWithin nodes m n (f + 1))
        = nodes.filter (fun m =>
            (m == n) || (childrenOf nodes n.id).any
              (fun c => reachWithin nodes m c f)) := by
      apply List.filter_congr
      intro m hm
      rw [Bool.eq_iff_iff, reachWithin_succ_iff hnd hm hn]
      simp [List.any_eq_true]
    rw [hfix, length_filter_or_disjoint nodes _ _ ?hdisj, count_id_filter hnd hn,
      length_filter_anyList nodes _ (childrenOf nodes n.id) hcsnd ?hpair]
    case hdisj =>
      intro m hm ⟨h1, h2⟩
      rcases List.any_eq_true.mp h2 with ⟨c, hc, hg⟩
      have : m = n := beq_iff_eq.mp h1
      subst this
      exact not_reach_own_child hnd hacyc hn hc f hg
    case hpair =>
      intro m hm c1 h1 c2 h2 hne ⟨hg1, hg2⟩
      rcases reachWithin_iff.mp hg1 with ⟨j1, _, hi1⟩
      rcases reachWithin_iff.mp hg2 with ⟨j2, _, hi2⟩
      rcases le_total j1 j2 with hle | hle
      · exact hne (children_reach_eq hnd hacyc hn h1 h2 (chain_linear hle hi1 hi2))
      · exact hne ((children_reach_eq hnd hacyc hn h2 h1 (chain_linear hle hi2 hi1)).symm)
    -- remaining: the layout side
    have hkids : ∀ (cs : List TreeNode), (∀ c ∈ cs, c ∈ nodes) →
        ∀ (st cp : ℚ) (isH : Bool) (sd : ℚ) (i : Nat),
        (layoutKids s (cs.map (buildSubtree nodes f)) st cp isH sd d i).length
          = (cs.map (fun c =>
              (nodes.filter (fun m => reachWithin nodes m c f)).length)).sum := by
      intro cs
      induction cs with
      | nil => intro _ st cp isH sd i; rfl
      | cons c rest ihc =>
        intro hmem st cp isH sd i
        show (layoutNode s (buildSubtree nodes f c) _ _ (d + 1)
            ++ layoutKids s (rest.map (buildSubtree nodes f)) st cp isH sd d (i + 1)).length
          = _
        rw [List.length_append, ih c (hmem c (List.mem_cons_self _ _)) _ _ (d + 1),
          ihc (fun c' hc' => hmem c' (List.mem_cons_of_mem _ hc')) st cp isH sd (i + 1)]
        simp
    cases hcs : childrenOf nodes n.id with
    | nil =>
      have hb : buildSubtree nodes (f + 1) n = TreeNW.mk n [] := by
        show TreeNW.mk n ((childrenOf nodes n.id).map (buildSubtree nodes f)) = _
        rw [hcs]
        rfl
      rw [hb]
      rfl
    | cons c rest =>
      have hb : buildSubtree nodes (f + 1) n
          = TreeNW.mk n ((c :: rest).map (buildSubtree nodes f)) := by
        show TreeNW.mk n ((childrenOf nodes n.id).map (buildSubtree nodes f)) = _
        rw [hcs]
      rw [hb, layoutNode]
      rw [if_neg (by simp)]
      have hmem : ∀ c' ∈ c :: rest, c' ∈ nodes := by
        intro c' hc'
        exact (mem_childrenOf.mp (hcs ▸ hc')).1
      simp only [List.length_cons]
      rw [hkids (c :: rest) hmem]
      omega

/-- C7: `computeTreeLayout` on a node list in which no node has
`parentId = null` returns the empty position list (total function, no throw);
and when the root-finding loop yields a root and every node's parent chain
resolves to that root (within `nodes.length` steps — always enough on distinct
ids), the returned position list has exactly one entry per input node. -/
theorem computeTreeLayout_root_cases (nodes : List TreeNode) (s : TreeSettings) :
    ((∀ n ∈ nodes, n.parentId ≠ none) → computeTreeLayout nodes s = []) ∧
    (∀ root, findRoot nodes = some root → idsNodup nodes →
      (∀ m ∈ nodes, reachWithin nodes m root nodes.length = true) →
      (computeTreeLayout nodes s).length = nodes.length) := by
  constructor
  · intro h
    rw [computeTreeLayout]
    rw [buildTree, findRoot_eq_none h]
    rfl
  · intro root hroot hnd hres
    have hrmem := (findRoot_cases hroot).1
    have hrpar := (findRoot_cases hroot).2
    have hacyc : ∀ x ∈ nodes, ∀ k, iterParent nodes (k + 1) x ≠ some x :=
      fun x hx => no_cycle_of_resolves hrpar (hres x hx)
    have hcompute : computeTreeLayout nodes s
        = layoutNode s (buildSubtree nodes nodes.length root)
            (if s.direction == "horizontal" then 50 else 400)
            (if s.direction == "horizontal" then 300 else 50) 0 := by
      rw [computeTreeLayout, buildTree, hroot]
      rfl
    rw [hcompute,
      buildSubtree_layout_length nodes s hnd hacyc nodes.length root hrmem]
    rw [List.filter_eq_self.mpr hres]

/-- C7 witness: a list with no root yields the empty layout, and a three-node
rooted tree yields exactly three positions. -/
theorem computeTreeLayout_root_cases_witness :
    computeTreeLayout [⟨"x", some "y", "", "below", none, "orange"⟩]
      DEFAULT_SETTINGS = [] ∧
    (computeTreeLayout
      [⟨"r", none, "", "above", none, "orange"⟩,
       ⟨"a", some "r", "", "below", none, "cyan"⟩,
       ⟨"b", some "r", "", "below", none, "green"⟩]
      DEFAULT_SETTINGS).length = 3 := by
  constructor
  · exact (computeTreeLayout_root_cases
      [⟨"x", some "y", "", "below", none, "orange"⟩] DEFAULT_SETTINGS).1
      (by decide)
  · have h := (computeTreeLayout_root_cases
      [⟨"r", none, "", "above", none, "orange"⟩,
       ⟨"a", some "r", "", "below", none, "cyan"⟩,
       ⟨"b", some "r", "", "below", none, "green"⟩] DEFAULT_SETTINGS).2
      ⟨"r", none, "", "above", none, "orange"⟩ (by decide) (by decide) (by decide)
    exact h.trans (by decide)

/-! ### Store state and cascade delete (use-tree-store, cascade-delete revision) -/

/-- The slice of the store state the delete action touches. -/
structure StoreState where
  nodes : List TreeNode
  edges : List TreeEdge
  selectedId : Option String
  selectedType : Option String
deriving DecidableEq

/-- `getDescendantIds` from the store: for each child (`nodes.filter` by
`parentId`), its id followed by its own descendants, flat-mapped in order.  The
structural fuel stands for the JS call stack — the recursion descends one tree
level per call, so `nodes.length` covers every input on which the JS recursion
terminates. -/
def getDescendantIds (nodes : List TreeNode) : Nat → String → List String
  | 0, _ => []
  | f + 1, nodeId =>
    (childrenOf nodes nodeId).flatMap
      (fun child => child.id :: getDescendantIds nodes f child.id)

/-- `new Set([id, ...getDescendantIds(id, state.nodes)])` as the id list whose
membership the delete action tests. -/
def deletedIds (nodes : List TreeNode) (id : String) : List String :=
  id :: getDescendantIds nodes nodes.length id

/-- `deleteNode` from the store: drops the node and all its descendants, drops
every edge whose source or target is deleted, and clears the selection exactly
when `state.selectedId ?? ''` is among the deleted ids. -/
def deleteNode (st : StoreState) (id : String) : StoreState :=
  let ids := deletedIds st.nodes id
  { nodes := st.nodes.filter (fun n => !ids.contains n.id),
    edges := st.edges.filter
      (fun e => !ids.contains e.sourceId && !ids.contains e.targetId),
    selectedId :=
      if ids.contains (st.selectedId.getD "") then none else st.selectedId,
    selectedType :=
      if ids.contains (st.selectedId.getD "") then none else st.selectedType }

/-- `m` is a strict transitive descendant of `nd`: some positive number of
parent-chain steps from `m` lands on `nd`. -/
def StrictDesc (nodes : List TreeNode) (m nd : TreeNode) : Prop :=
  ∃ j, 1 ≤ j ∧ iterParent nodes j m = some nd

/-- The id `x` belongs to the deleted set in the semantic sense: it is the
deleted node's id or the id of one of its strict transitive descendants. -/
def RemovedId (nodes : List TreeNode) (nd : TreeNode) (x : String) : Prop :=
  x = nd.id ∨ ∃ m ∈ nodes, m.id = x ∧ StrictDesc nodes m nd

theorem getDescendantIds_sound {nodes : List TreeNode} (hnd : idsNodup nodes) :
    ∀ f, ∀ nd ∈ nodes, ∀ x, x ∈ getDescendantIds nodes f nd.id →
      ∃ m ∈ nodes, m.id = x ∧ ∃ j, 1 ≤ j ∧ j ≤ f ∧ iterParent nodes j m = some nd := by
  intro f
  induction f with
  | zero => intro nd _ x hx; cases hx
  | succ f ih =>
    intro nd hn x hx
    rcases List.mem_flatMap.mp hx with ⟨c, hc, hcx⟩
    have hcmem : c ∈ nodes := (mem_childrenOf.mp hc).1
    have hcpar : c.parentId = some nd.id := (mem_childrenOf.mp hc).2
    have hp : parentOf nodes c = some nd := parentOf_child hnd hn hcpar
    rcases List.mem_cons.mp hcx with rfl | hdeep
    · refine ⟨c, hcmem, rfl, 1, le_refl 1, by omega, ?_⟩
      show (parentOf nodes c).bind (iterParent nodes 0) = some nd
      rw [hp]
      rfl
    · rcases ih c hcmem x hdeep with ⟨m, hm, hmx, j, hj1, hjf, hiter⟩
      refine ⟨m, hm, hmx, j + 1, by omega, by omega, ?_⟩
      rw [iterParent_succ_far, hiter, Option.some_bind, hp]

theorem getDescendantIds_complete {nodes : List TreeNode} (hnd : idsNodup nodes) :
    ∀ f, ∀ nd ∈ nodes, ∀ m ∈ nodes, ∀ j, 1 ≤ j → j ≤ f →
      iterParent nodes j m = some nd → m.id ∈ getDescendantIds nodes f nd.id := by
  intro f
  induction f with
  | zero => intro nd _ m _ j h1 h2 _; omega
  | succ f ih =>
    intro nd hn m hm j h1 h2 hiter
    cases j with
    | zero => omega
    | succ j =>
      rw [iterParent_succ_far] at hiter
      rcases Option.bind_eq_some.mp hiter with ⟨c, hc, hpc⟩
      have hcmem : c ∈ nodes := iterParent_mem hm hc
      have hcpar : c.parentId = some nd.id := by
        unfold parentOf at hpc
        cases hpid : c.parentId with
        | none => rw [hpid] at hpc; cases hpc
        | some pid =>
          rw [hpid] at hpc
          rw [(findById_eq_some hpc).2]
      have hcchild : c ∈ childrenOf nodes nd.id := mem_childrenOf.mpr ⟨hcmem, hcpar⟩
      apply List.mem_flatMap.mpr
      refine ⟨c, hcchild, ?_⟩
      cases j with
      | zero =>
        cases hc
        exact List.mem_cons_self _ _
      | succ j =>
        exact List.mem_cons_of_mem _ (ih c hcmem m hm (j + 1) (by omega) (by omega) hc)

theorem iter_bounded_by_resolution {nodes : List TreeNode} {root m c : TreeNode}
    {jr j : Nat} (hrpar : root.parentId = none)
    (hjr : iterParent nodes jr m = some root)
    (hj : iterParent nodes j m = some c) : j ≤ jr := by
  by_contra hgt
  push_neg at hgt
  have hnone : iterParent nodes (jr + 1) m = none := by
    rw [iterParent_succ_far, hjr, Option.some_bind]
    unfold parentOf
    rw [hrpar]
  have hstab := iterParent_none_stable hnone (j - (jr + 1))
  rw [show jr + 1 + (j - (jr + 1)) = j from by omega, hj] at hstab
  cases hstab

theorem mem_deletedIds_iff {nodes : List TreeNode} {nd root : TreeNode}
    (hnd : idsNodup nodes) (hn : nd ∈ nodes)
    (hroot : findRoot nodes = some root)
    (hres : ∀ m ∈ nodes, reachWithin nodes m root nodes.length = true) :
    ∀ x, x ∈ deletedIds nodes nd.id ↔ RemovedId nodes nd x := by
  intro x
  constructor
  · intro hx
    rcases List.mem_cons.mp hx with rfl | hdesc
    · exact Or.inl rfl
    · rcases getDescendantIds_sound hnd nodes.length nd hn x hdesc with
        ⟨m, hm, hmx, j, hj1, _, hiter⟩
      exact Or.inr ⟨m, hm, hmx, j, hj1, hiter⟩
  · intro hx
    rcases hx with rfl | ⟨m, hm, hmx, j, hj1, hiter⟩
    · exact List.mem_cons_self _ _
    · rcases reachWithin_iff.mp (hres m hm) with ⟨jr, hjrle, hjr⟩
      have hrpar : root.parentId = none := (findRoot_cases hroot).2
      have hjle : j ≤ nodes.length :=
        le_trans (iter_bounded_by_resolution hrpar hjr hiter) hjrle
      exact hmx ▸ List.mem_cons_of_mem _
        (getDescendantIds_complete hnd nodes.length nd hn m hm j hj1 hjle hiter)

theorem contains_iff_removed {nodes : List TreeNode} {nd root : TreeNode}
    (hnd : idsNodup nodes) (hn : nd ∈ nodes)
    (hroot : findRoot nodes = some root)
    (hres : ∀ m ∈ nodes, reachWithin nodes m root nodes.length = true) :
    ∀ x, (deletedIds nodes nd.id).contains x = true ↔ RemovedId nodes nd x := by
  intro x
  rw [List.contains_iff_exists_mem_beq]
  constructor
  · rintro ⟨y, hy, hbeq⟩
    exact (mem_deletedIds_iff hnd hn hroot hres x).mp (beq_iff_eq.mp hbeq ▸ hy)
  · intro h
    exact ⟨x, (mem_deletedIds_iff hnd hn hroot hres x).mpr h, beq_iff_eq.mpr rfl⟩

/-- C10: for every store state whose node list forms a resolving tree (distinct
ids, every node's parent chain reaching the root found by the linking loop) and
every node `nd` of the state, `deleteNode nd.id` removes exactly `nd` together
with all of its strict transitive descendants and every edge whose source or
target id is a removed id, keeps everything else unchanged and in order (the
surviving lists are sublists), resets the selection to `none` exactly when the
previously selected id is a removed id (keeping it otherwise), and afterwards
no remaining node's `parentId` references a removed id. -/
theorem deleteNode_cascade (st : StoreState) (nd root : TreeNode)
    (hnd : idsNodup st.nodes) (hn : nd ∈ st.nodes)
    (hroot : findRoot st.nodes = some root)
    (hres : ∀ m ∈ st.nodes, reachWithin st.nodes m root st.nodes.length = true) :
    (∀ n, n ∈ (deleteNode st nd.id).nodes ↔
        n ∈ st.nodes ∧ ¬ RemovedId st.nodes nd n.id) ∧
    List.Sublist (deleteNode st nd.id).nodes st.nodes ∧
    (∀ e, e ∈ (deleteNode st nd.id).edges ↔
        e ∈ st.edges ∧ ¬ RemovedId st.nodes nd e.sourceId
          ∧ ¬ RemovedId st.nodes nd e.targetId) ∧
    List.Sublist (deleteNode st nd.id).edges st.edges ∧
    (∀ sId, st.selectedId = some sId →
        (RemovedId st.nodes nd sId → (deleteNode st nd.id).selectedId = none) ∧
        (¬ RemovedId st.nodes nd sId →
          (deleteNode st nd.id).selectedId = some sId)) ∧
    (st.selectedId = none → (deleteNode st nd.id).selectedId = none) ∧
    (∀ n ∈ (deleteNode st nd.id).nodes, ∀ pid, n.parentId = some pid →
        ¬ RemovedId st.nodes nd pid) := by
  have hciff := contains_iff_removed hnd hn hroot hres
  have hmemn : ∀ n, n ∈ (deleteNode st nd.id).nodes ↔
      n ∈ st.nodes ∧ ¬ RemovedId st.nodes nd n.id := by
    intro n
    show n ∈ st.nodes.filter _ ↔ _
    rw [List.mem_filter]
    constructor
    · rintro ⟨hmem, hcond⟩
      refine ⟨hmem, fun hrem => ?_⟩
      rw [Bool.not_eq_true', ← Bool.not_eq_true] at hcond
      exact hcond (by simpa using (hciff n.id).mpr hrem)
    · rintro ⟨hmem, hnrem⟩
      refine ⟨hmem, ?_⟩
      simp only [Bool.not_eq_true']
      by_contra hc
      rw [Bool.not_eq_false] at hc
      exact hnrem ((hciff n.id).mp (by simpa using hc))
  refine ⟨hmemn, ?_, ?_, ?_, ?_, ?_, ?_⟩
  · exact List.filter_sublist _
  · intro e
    show e ∈ st.edges.filter _ ↔ _
    rw [List.mem_filter]
    constructor
    · rintro ⟨hmem, hcond⟩
      rw [Bool.and_eq_true] at hcond
      refine ⟨hmem, fun hrem => ?_, fun hrem => ?_⟩
      · have h1 : (deletedIds st.nodes nd.id).contains e.sourceId = false := by
          simpa using hcond.1
        exact absurd ((hciff e.sourceId).mpr hrem) (by simpa using h1)
      · have h1 : (deletedIds st.nodes nd.id).contains e.targetId = false := by
          simpa using hcond.2
        exact absurd ((hciff e.targetId).mpr hrem) (by simpa using h1)
    · rintro ⟨hmem, hs, ht⟩
      refine ⟨hmem, ?_⟩
      rw [Bool.and_eq_true]
      constructor
      · rw [Bool.not_eq_true']
        by_contra hc
        rw [Bool.not_eq_false] at hc
        exact hs ((hciff e.sourceId).mp hc)
      · rw [Bool.not_eq_true']
        by_contra hc
        rw [Bool.not_eq_false] at hc
        exact ht ((hciff e.targetId).mp hc)
  · exact List.filter_sublist _
  · intro sId hsel
    constructor
    · intro hrem
      show (if (deletedIds st.nodes nd.id).contains (st.selectedId.getD "") then none
            else st.selectedId) = none
      rw [hsel]
      simp only [Option.getD_some]
      rw [if_pos ((hciff sId).mpr hrem)]
    · intro hnrem
      show (if (deletedIds st.nodes nd.id).contains (st.selectedId.getD "") then none
            else st.selectedId) = some sId
      rw [hsel]
      simp only [Option.getD_some]
      rw [if_neg (fun hc => hnrem ((hciff sId).mp hc))]
  · intro hsel
    show (if (deletedIds st.nodes nd.id).contains (st.selectedId.getD "") then none
          else st.selectedId) = none
    rw [hsel]
    split <;> rfl
  · intro n hnmem pid hpid hrem
    have hnin := (hmemn n).mp hnmem
    rcases hrem with rfl | ⟨m, hm, hmx, j, hj1, hiter⟩
    · exact hnin.2 (Or.inr ⟨n, hnin.1, rfl, 1, le_refl 1, by
        show (parentOf st.nodes n).bind (iterParent st.nodes 0) = some nd
        rw [show parentOf st.nodes n = some nd from by
          unfold parentOf
          rw [hpid]
          exact findById_self hnd hn]
        rfl⟩)
    · refine hnin.2 (Or.inr ⟨n, hnin.1, rfl, j + 1, by omega, ?_⟩)
      have hone : iterParent st.nodes 1 n = some m := by
        show (parentOf st.nodes n).bind (iterParent st.nodes 0) = some m
        rw [show parentOf st.nodes n = some m from by
          unfold parentOf
          rw [hpid, ← hmx]
          exact findById_self hnd hm]
        rfl
      have hadd := iterParent_add st.nodes 1 j n
      rw [hone, Option.some_bind, hiter] at hadd
      rw [show j + 1 = 1 + j from by omega]
      exact hadd

/-- A concrete store for the delete-cascade witness: root `r` with children
`a` and `c`, grandchild `b` under `a`, edges along the tree, `b` selected. -/
def sampleStore : StoreState :=
  { nodes :=
      [⟨"r", none, "", "above", none, "orange"⟩,
       ⟨"a", some "r", "", "below", none, "cyan"⟩,
       ⟨"b", some "a", "", "below", none, "green"⟩,
       ⟨"c", some "r", "", "below", none, "pink"⟩],
    edges :=
      [⟨"e1", "r", "a", "", "left", none, none⟩,
       ⟨"e2", "a", "b", "", "left", none, none⟩,
       ⟨"e3", "r", "c", "", "right", none, none⟩],
    selectedId := some "b",
    selectedType := some "node" }

/-- C10 witness: deleting `a` from the sample store clears the selection (the
selected `b` is a strict descendant of `a`), and the surviving nodes and edges
are exactly those outside the deleted subtree. -/
theorem deleteNode_cascade_witness :
    (deleteNode sampleStore "a").selectedId = none ∧
    (deleteNode sampleStore "a").nodes =
      [⟨"r", none, "", "above", none, "orange"⟩,
       ⟨"c", some "r", "", "below", none, "pink"⟩] ∧
    (deleteNode sampleStore "a").edges = [⟨"e3", "r", "c", "", "right", none, none⟩] := by
  have h := deleteNode_cascade sampleStore
    ⟨"a", some "r", "", "below", none, "cyan"⟩
    ⟨"r", none, "", "above", none, "orange"⟩
    (by decide) (by decide) (by decide) (by decide)
  refine ⟨?_, by decide, by decide⟩
  exact (h.2.2.2.2.1 "b" rfl).1
    (Or.inr ⟨⟨"b", some "a", "", "below", none, "green"⟩, by decide, rfl,
      1, le_refl 1, by decide⟩)

end TreeDiagram
